import Mathlib

/-!
# boom: the request-supply front end (`boom.go`)

A shallow embedding of `boom.go` and of the library behaviour it relies on
(`regexp`, `strings.Split`, `net/http` header canonicalisation and basic auth,
`crypto/md5`, `time.Format`, `bufio.Scanner`), followed by theorems about it.

Conventions of the embedding:
* a Go `string` that holds text is a `List Char` (`Str`); where Go looks at the bytes
  (`[]byte(s)`, file contents) the value is a `List UInt8`;
* Go `int` values of the flags are `Int` (no arithmetic is done on them);
* `usageAndExit` ends the process, so code that may call it returns `Except Exit _`;
* what the operating system and the libraries decide (the clock, opening a file,
  parsing a URL, upper-casing) is read from an explicit environment, and the outcome of
  `flag.Parse()` is the input of `main`.
-/

namespace Boom

abbrev Str := List Char

deriving instance DecidableEq for Except

/-- Go's `[]byte(s)` for a string holding valid UTF-8 text. -/
def toBytes (s : Str) : List UInt8 := s.flatMap String.utf8EncodeChar

/-! ## Process exit -/

/-- What the process leaves behind when `usageAndExit` ends it: the message handed to
`usageAndExit` (printed before the usage text when non-empty) and the exit status. -/
structure Exit where
  msg : Str
  status : Nat
deriving DecidableEq, Repr

/-- Function `usageAndExit` (boom.go 273-281): message, usage text, `os.Exit(1)`. -/
def usageAndExit (msg : Str) : Exit := ⟨msg, 1⟩

/-! ## Count / duration resolution (boom.go 116-130) -/

/-- Constant `math.MaxInt32`. -/
def maxInt32 : Int := 2147483647

/-- The values `num`, `conc`, `timelimit` that `main` hands to the engine as `N`, `C`, `T`. -/
structure Resolved where
  num : Int
  conc : Int
  timelimit : Int
deriving DecidableEq, Repr

/-- Lines 116-130 of `main`: `timelimit == 0` selects count mode, anything else duration
mode; then the range check `num <= 0 || conc <= 0 || timelimit < 0`. -/
def resolveCountDuration (n c t : Int) : Except Exit Resolved :=
  let num := if t = 0 then n else maxInt32
  let timelimit := if t = 0 then maxInt32 else t
  if num ≤ 0 ∨ c ≤ 0 ∨ timelimit < 0 then
    .error (usageAndExit "n, c and t cannot be smaller than 1.".toList)
  else .ok ⟨num, c, timelimit⟩

/-! ## Character classes -/

def isDigit (c : Char) : Bool := 48 ≤ c.toNat && c.toNat ≤ 57
def isUpper (c : Char) : Bool := 65 ≤ c.toNat && c.toNat ≤ 90
def isLower (c : Char) : Bool := 97 ≤ c.toNat && c.toNat ≤ 122
def isAlphaNum (c : Char) : Bool := isDigit c || isUpper c || isLower c

/-- RE2 class `\s`: tab, newline, form feed, carriage return, space. -/
def isSpace (c : Char) : Bool :=
  c == '\t' || c == '\n' || c == Char.ofNat 12 || c == '\r' || c == ' '

/-- RE2 class `\w`: `[0-9A-Za-z_]`. -/
def isWord (c : Char) : Bool := isAlphaNum c || c == '_'

/-- RE2 `.` without the `s` flag: any character but newline. -/
def isDot (c : Char) : Bool := c != '\n'

/-- Class `[\w-]`. -/
def isWordDash (c : Char) : Bool := isWord c || c == '-'

/-- The literal `:`. -/
def isColon (c : Char) : Bool := c == ':'

/-- Class `[^\s]`. -/
def notSpace (c : Char) : Bool := !isSpace c

/-! ## Regular expressions (package `regexp`, leftmost-first semantics) -/

/-- The fragment of RE2 syntax that the two patterns of boom.go are written in:
`^`, a one-character class, greedy `x*` and `x+` of a one-character class,
concatenation and capturing groups. -/
inductive Regex where
  | bot
  | cls (p : Char → Bool)
  | star (p : Char → Bool)
  | plus (p : Char → Bool)
  | seq (a b : Regex)
  | group (r : Regex)

/-- One way of matching a piece of the input: the text consumed, the text left, and the
captures of the groups inside, in order of their opening parenthesis. -/
structure Match where
  consumed : Str
  rest : Str
  groups : List Str
deriving DecidableEq, Repr

/-- The ways greedy `x*` can split its input, longest first: the order in which a
backtracking matcher tries them. -/
def starSplits (p : Char → Bool) : Str → List (Str × Str)
  | [] => [([], [])]
  | c :: cs =>
    if p c then (starSplits p cs).map (fun x => (c :: x.1, x.2)) ++ [([], c :: cs)]
    else [([], c :: cs)]

/-- All ways `re` matches at the head of the input, in priority order (the first is the
one `regexp` reports). `atStart` tells whether the input begins at the start of the text. -/
def Regex.matches : Regex → Bool → Str → List Match
  | .bot, atStart, s => if atStart then [⟨[], s, []⟩] else []
  | .cls p, _, s =>
    match s with
    | c :: cs => if p c then [⟨[c], cs, []⟩] else []
    | [] => []
  | .star p, _, s => (starSplits p s).map (fun x => ⟨x.1, x.2, []⟩)
  | .plus p, _, s =>
    match s with
    | c :: cs => if p c then (starSplits p cs).map (fun x => ⟨c :: x.1, x.2, []⟩) else []
    | [] => []
  | .seq a b, atStart, s =>
    (a.matches atStart s).flatMap (fun m1 =>
      (b.matches (atStart && m1.consumed.isEmpty) m1.rest).map (fun m2 =>
        ⟨m1.consumed ++ m2.consumed, m2.rest, m1.groups ++ m2.groups⟩))
  | .group r, atStart, s =>
    (r.matches atStart s).map (fun m => ⟨m.consumed, m.rest, m.consumed :: m.groups⟩)

/-- Method `FindStringSubmatch`: the leftmost match, as the matched text followed by the
captures; the empty slice when nothing matches. -/
def findFrom (re : Regex) : Bool → Str → List Str
  | atStart, s =>
    match (re.matches atStart s).head? with
    | some m => m.consumed :: m.groups
    | none =>
      match s with
      | [] => []
      | _ :: cs => findFrom re false cs

/-- Constant `headerRegexp`, the pattern `^([\w-]+):\s*(.+)`. -/
def headerRegexp : Regex :=
  .seq .bot (.seq (.group (.plus isWordDash))
    (.seq (.cls isColon) (.seq (.star isSpace) (.group (.plus isDot)))))

/-- Constant `authRegexp`, the pattern `^(.+):([^\s].+)`. -/
def authRegexp : Regex :=
  .seq .bot (.seq (.group (.plus isDot))
    (.seq (.cls isColon) (.group (.seq (.cls notSpace) (.plus isDot)))))

/-- Function `parseInputWithRegexp` (boom.go 283-290). -/
def parseInputWithRegexp (input : Str) (regx : Regex) : Except Str (List Str) :=
  let ms := findFrom regx true input
  if ms.length < 1 then
    .error ("could not parse the provided input; input = ".toList ++ input)
  else .ok ms

/-- Function `strings.Split` with a one-character separator. -/
def splitSep {α : Type} [DecidableEq α] (sep : α) : List α → List (List α)
  | [] => [[]]
  | c :: cs =>
    if c = sep then [] :: splitSep sep cs
    else
      match splitSep sep cs with
      | seg :: segs => (c :: seg) :: segs
      | [] => [[c]]

/-! ## HTTP headers (`net/http`, `net/textproto`) -/

/-- Token bytes of a header field name (`validHeaderFieldByte`). -/
def validHeaderFieldByte (c : Char) : Bool :=
  isAlphaNum c || "!#$%&*+-.^_|~".toList.contains c || c == Char.ofNat 39 || c == Char.ofNat 96

/-- One step of the canonicalisation loop: upper case at the start and after a dash,
lower case elsewhere. -/
def canonChar (upper : Bool) (c : Char) : Char :=
  if upper && isLower c then Char.ofNat (c.toNat - 32)
  else if !upper && isUpper c then Char.ofNat (c.toNat + 32)
  else c

def canonLoop : Bool → Str → Str
  | _, [] => []
  | upper, c :: cs => canonChar upper c :: canonLoop (canonChar upper c == '-') cs

/-- Function `textproto.CanonicalMIMEHeaderKey`: a key made of token bytes is
canonicalised, any other key is returned unchanged. -/
def canonicalMIMEHeaderKey (s : Str) : Str :=
  if s.all validHeaderFieldByte then canonLoop true s else s

/-- Type `http.Header`, a `map[string][]string`. -/
abbrev Header := Str → Option (List Str)

/-- The map made by `make(http.Header)`. -/
def Header.empty : Header := fun _ => none

/-- Method `Header.Set`: the entry of the canonical key becomes the one value. -/
def Header.Set (h : Header) (key value : Str) : Header :=
  fun k => if k = canonicalMIMEHeaderKey key then some [value] else h k

def base64Alphabet : Str :=
  "ABCDEFGHIJKLMNOPQRSTUVWXYZabcdefghijklmnopqrstuvwxyz0123456789+/".toList

def b64 (n : Nat) : Char := base64Alphabet.getD n 'A'

/-- Encoding `base64.StdEncoding.EncodeToString`. -/
def base64Encode : List UInt8 → Str
  | a :: b :: c :: rest =>
    let n := a.toNat * 65536 + b.toNat * 256 + c.toNat
    b64 (n / 262144) :: b64 (n / 4096 % 64) :: b64 (n / 64 % 64) :: b64 (n % 64)
      :: base64Encode rest
  | [a, b] =>
    let n := a.toNat * 65536 + b.toNat * 256
    [b64 (n / 262144), b64 (n / 4096 % 64), b64 (n / 64 % 64), '=']
  | [a] =>
    let n := a.toNat * 65536
    [b64 (n / 262144), b64 (n / 4096 % 64), '=', '=']
  | [] => []

/-- Function `basicAuth` of `net/http`. -/
def basicAuth (username password : Str) : Str :=
  base64Encode (toBytes (username ++ ":".toList ++ password))

/-! ## The test flag (boom.go 230-237) -/

def md5S : List Nat :=
  [7, 12, 17, 22, 7, 12, 17, 22, 7, 12, 17, 22, 7, 12, 17, 22,
   5, 9, 14, 20, 5, 9, 14, 20, 5, 9, 14, 20, 5, 9, 14, 20,
   4, 11, 16, 23, 4, 11, 16, 23, 4, 11, 16, 23, 4, 11, 16, 23,
   6, 10, 15, 21, 6, 10, 15, 21, 6, 10, 15, 21, 6, 10, 15, 21]

def md5K : List Nat :=
  [0xd76aa478, 0xe8c7b756, 0x242070db, 0xc1bdceee, 0xf57c0faf, 0x4787c62a, 0xa8304613, 0xfd469501,
   0x698098d8, 0x8b44f7af, 0xffff5bb1, 0x895cd7be, 0x6b901122, 0xfd987193, 0xa679438e, 0x49b40821,
   0xf61e2562, 0xc040b340, 0x265e5a51, 0xe9b6c7aa, 0xd62f105d, 0x02441453, 0xd8a1e681, 0xe7d3fbc8,
   0x21e1cde6, 0xc33707d6, 0xf4d50d87, 0x455a14ed, 0xa9e3e905, 0xfcefa3f8, 0x676f02d9, 0x8d2a4c8a,
   0xfffa3942, 0x8771f681, 0x6d9d6122, 0xfde5380c, 0xa4beea44, 0x4bdecfa9, 0xf6bb4b60, 0xbebfbc70,
   0x289b7ec6, 0xeaa127fa, 0xd4ef3085, 0x04881d05, 0xd9d4d039, 0xe6db99e5, 0x1fa27cf8, 0xc4ac5665,
   0xf4292244, 0x432aff97, 0xab9423a7, 0xfc93a039, 0x655b59c3, 0x8f0ccc92, 0xffeff47d, 0x85845dd1,
   0x6fa87e4f, 0xfe2ce6e0, 0xa3014314, 0x4e0811a1, 0xf7537e82, 0xbd3af235, 0x2ad7d2bb, 0xeb86d391]

def rotl32 (x n : Nat) : Nat := ((x <<< n) ||| (x >>> (32 - n))) % 2 ^ 32

def not32 (x : Nat) : Nat := x ^^^ 0xffffffff

structure Md5State where
  a : Nat
  b : Nat
  c : Nat
  d : Nat
deriving DecidableEq, Repr

def md5Init : Md5State := ⟨0x67452301, 0xefcdab89, 0x98badcfe, 0x10325476⟩

def md5Round (m : List Nat) (st : Md5State) (i : Nat) : Md5State :=
  let fg : Nat × Nat :=
    if i < 16 then ((st.b &&& st.c) ||| (not32 st.b &&& st.d), i)
    else if i < 32 then ((st.d &&& st.b) ||| (not32 st.d &&& st.c), (5 * i + 1) % 16)
    else if i < 48 then (st.b ^^^ st.c ^^^ st.d, (3 * i + 5) % 16)
    else (st.c ^^^ (st.b ||| not32 st.d), (7 * i) % 16)
  let f := (fg.1 + st.a + md5K.getD i 0 + m.getD fg.2 0) % 2 ^ 32
  ⟨st.d, (st.b + rotl32 f (md5S.getD i 0)) % 2 ^ 32, st.b, st.c⟩

def md5Block (st : Md5State) (m : List Nat) : Md5State :=
  let r := (List.range 64).foldl (md5Round m) st
  ⟨(st.a + r.a) % 2 ^ 32, (st.b + r.b) % 2 ^ 32, (st.c + r.c) % 2 ^ 32, (st.d + r.d) % 2 ^ 32⟩

def leBytes : Nat → Nat → List Nat
  | 0, _ => []
  | k + 1, x => x % 256 :: leBytes k (x / 256)

def wordsLE : List Nat → List Nat
  | a :: b :: c :: d :: rest => (a + 256 * b + 65536 * c + 16777216 * d) :: wordsLE rest
  | _ => []

def md5Pad (msg : List UInt8) : List Nat :=
  msg.map UInt8.toNat ++ [0x80] ++ List.replicate ((119 - msg.length % 64) % 64) 0
    ++ leBytes 8 ((8 * msg.length) % 2 ^ 64)

def md5Blocks : Nat → List Nat → Md5State → Md5State
  | 0, _, st => st
  | k + 1, ws, st => md5Blocks k (ws.drop 16) (md5Block st (ws.take 16))

/-- The MD5 digest (RFC 1321), which `md5.New`, `Write` and `Sum(nil)` compute. -/
def md5 (msg : List UInt8) : List UInt8 :=
  let ws := wordsLE (md5Pad msg)
  let st := md5Blocks (ws.length / 16) ws md5Init
  (leBytes 4 st.a ++ leBytes 4 st.b ++ leBytes 4 st.c ++ leBytes 4 st.d).map Nat.toUInt8

def hexChars : Str := "0123456789abcdef".toList

def hexDigit (n : Nat) : Char := hexChars.getD n '0'

/-- Formatting `fmt.Sprintf("%x", bytes)`: two lower-case hex digits per byte. -/
def hexEncode (bs : List UInt8) : Str :=
  bs.flatMap (fun b => [hexDigit (b.toNat / 16), hexDigit (b.toNat % 16)])

/-- The calendar reading of a `time.Time` in its location (the year of a clock reading
is not negative). -/
structure Time where
  year : Nat
  month : Nat
  day : Nat
  hour : Nat
  minute : Nat
  second : Nat
  nanosecond : Nat
deriving DecidableEq, Repr

/-- Function `appendInt` of package `time`: decimal, zero-padded to `width`. -/
def appendInt (x width : Nat) : Str :=
  let ds := Nat.toDigits 10 x
  List.replicate (width - ds.length) '0' ++ ds

/-- Method `t.Format("2006010215")`: year, month, day, hour. -/
def Time.Format2006010215 (t : Time) : Str :=
  appendInt t.year 4 ++ appendInt t.month 2 ++ appendInt t.day 2 ++ appendInt t.hour 2

/-- Function `calcTestFlag` (boom.go 230-237). The hash object is modelled by the bytes
written to it so far. -/
def calcTestFlag (key : Str) (t : Time) : Str :=
  let hash : List UInt8 := []
  let ts := t.Format2006010215
  let hash := hash ++ toBytes ts
  let hash := hash ++ toBytes key
  let ret := md5 hash
  hexEncode ret

/-! ## Header and credential assembly (boom.go 143-173) -/

/-- The loop of lines 153-159 over the `;`-separated pieces of `-h`. -/
def setCustomHeaders : List Str → Header → Except Exit Header
  | [], header => .ok header
  | h :: hs, header =>
    match parseInputWithRegexp h headerRegexp with
    | .error err => .error (usageAndExit err)
    | .ok m => setCustomHeaders hs (header.Set (m.getD 1 []) (m.getD 2 []))

/-- Lines 150-160 of `main`: the custom headers of `-h`, parsed only when the flag is not
empty. -/
def addCustomHeaders (headers : Str) (header : Header) : Except Exit Header :=
  if headers ≠ [] then setCustomHeaders (splitSep ';' headers) header else .ok header

/-- Lines 137-164 of `main`. The test `k != nil` holds always (`k` is the flag variable),
so `X-Perf-Test` is always written. -/
def assembleHeader (contentType k headers accept : Str) (now : Time) : Except Exit Header :=
  let header := Header.empty
  let header := header.Set "Content-Type".toList contentType
  let header := header.Set "X-Perf-Test".toList (calcTestFlag k now)
  match addCustomHeaders headers header with
  | .error e => .error e
  | .ok header => .ok (if accept ≠ [] then header.Set "Accept".toList accept else header)

/-- Lines 166-173 of `main`: username and password. -/
def parseAuth (authHeader : Str) : Except Exit (Str × Str) :=
  if authHeader ≠ [] then
    match parseInputWithRegexp authHeader authRegexp with
    | .error err => .error (usageAndExit err)
    | .ok m => .ok (m.getD 1 [], m.getD 2 [])
  else .ok ([], [])

/-! ## Request construction (boom.go 261-271) -/

/-- A request as boom.go builds it: `Method` and `URL` are the arguments handed to
`http.NewRequest` (what the library makes of them is not modelled), `Header` is the map
the request refers to. -/
structure Request where
  Method : Str
  URL : Str
  Header : Header

/-- Result of `buildRequest`: the request, or the exit when `http.NewRequest` failed,
and the state of the header map that the caller passed in (Go maps are references, so
`req.Header = header` makes the request and the caller share one map). -/
structure BuildResult where
  outcome : Except Exit Request
  header : Header

/-- Function `buildRequest` (boom.go 261-271). `newRequestErr method url` is the error of
`http.NewRequest(method, url, nil)`, if any. `SetBasicAuth` is
`r.Header.Set("Authorization", "Basic " + basicAuth(username, password))`. -/
def buildRequest (newRequestErr : Str → Str → Option Str) (method url : Str) (header : Header)
    (username password : Str) : BuildResult :=
  match newRequestErr method url with
  | some err => ⟨.error (usageAndExit err), header⟩
  | none =>
    if username ≠ [] ∨ password ≠ [] then
      let shared := header.Set "Authorization".toList
        ("Basic ".toList ++ basicAuth username password)
      ⟨.ok ⟨method, url, shared⟩, shared⟩
    else ⟨.ok ⟨method, url, header⟩, header⟩

/-! ## The cyclic file source (boom.go 239-259) -/

/-- Constant `bufio.MaxScanTokenSize`, the largest buffer of a `Scanner`. -/
def maxScanTokenSize : Nat := 64 * 1024

/-- Function `dropCR` of `bufio`. -/
def dropCR (data : List UInt8) : List UInt8 :=
  if data.getLast? = some 13 then data.dropLast else data

/-- One call of `scanner.Scan()` with the default `ScanLines` on the unread data: the
token and the data left, or `none` when `Scan` returns false (end of file, or a line
that does not fit the buffer: `ErrTooLong`). -/
def scan (data : List UInt8) : Option (List UInt8 × List UInt8) :=
  if data = [] then none
  else
    match data.dropWhile (· ≠ 10) with
    | _ :: rest =>
      if (data.takeWhile (· ≠ 10)).length + 1 ≤ maxScanTokenSize then
        some (dropCR (data.takeWhile (· ≠ 10)), rest)
      else none
    | [] =>
      if data.length < maxScanTokenSize then some (dropCR data, []) else none

/-- The loop `for scanner.Scan() \x7b urlChan <- scanner.Text() \x7d`: the tokens pushed, and
the data that was still unread when `Scan` returned false. -/
def scanLoop : Nat → List UInt8 → List (List UInt8) × List UInt8
  | 0, data => ([], data)
  | fuel + 1, data =>
    match scan data with
    | none => ([], data)
    | some (tok, rest) => (tok :: (scanLoop fuel rest).1, (scanLoop fuel rest).2)

/-- An open file: its content and the read offset of the descriptor. -/
structure File where
  content : List UInt8
  offset : Nat
deriving DecidableEq, Repr

/-- Call `fd.Seek(0, 0)`. -/
def File.seekStart (fd : File) : File := { fd with offset := 0 }

/-- One turn of the outer `for` of `buildUrlChan`: seek to the start, scan to the end.
Returns the URLs pushed on `urlChan` and the file afterwards (the scanner has read up to
the end of the file, or one full buffer into the line that was too long). -/
def scanPass (fd : File) : List (List UInt8) × File :=
  let fd := fd.seekStart
  let data := fd.content.drop fd.offset
  let r := scanLoop data.length data
  let consumed := data.length - r.2.length
  let readTo := if r.2 = [] then fd.content.length
    else fd.offset + consumed + maxScanTokenSize
  (r.1, { fd with offset := readTo })

/-- The first `passes` turns of the endless loop of `buildUrlChan`, one list of pushed
URLs per turn. -/
def scanPasses : Nat → File → List (List (List UInt8))
  | 0, _ => []
  | k + 1, fd => (scanPass fd).1 :: scanPasses k (scanPass fd).2

/-- Function `buildUrlChan` (boom.go 239-259): `os.Open` (its result is `opened`), then the
endless producer; the channel is described by the file it is fed from. -/
def buildUrlChan (opened : Except Str (List UInt8)) : Except Str File :=
  match opened with
  | .error err => .error err
  | .ok content => .ok ⟨content, 0⟩

/-! ## `main` (boom.go 100-228) -/

/-- The command line after `flag.Parse()`: the flag variables and `flag.Args()`. -/
structure Flags where
  m : Str
  headers : Str
  body : Str
  accept : Str
  contentType : Str
  authHeader : Str
  readAll : Bool
  output : Str
  file : Str
  c : Int
  n : Int
  t : Int
  q : Int
  s : Int
  k : Str
  cpus : Int
  port : Int
  insecure : Bool
  disableCompression : Bool
  disableKeepAlives : Bool
  proxyAddr : Str
  args : List Str

/-- The flag defaults of boom.go 41-64, with the given positional arguments. -/
def Flags.defaults (cpus : Int) (args : List Str) : Flags :=
  { m := "GET".toList, headers := [], body := [], accept := [],
    contentType := "text/html".toList, authHeader := [], readAll := false, output := [],
    file := [], c := 4, n := 200, t := 0, q := 0, s := 0, k := [], cpus := cpus, port := 6060,
    insecure := false, disableCompression := false, disableKeepAlives := false,
    proxyAddr := [], args := args }

/-- What `main` asks of its surroundings: the clock (`time.Now`), `strings.ToUpper`,
`gourl.Parse`, `os.Open` and the error of `http.NewRequest`. -/
structure Env where
  now : Time
  toUpper : Str → Str
  parseURL : Str → Except Str Str
  openFile : Str → Except Str (List UInt8)
  newRequestErr : Str → Str → Option Str

/-- The producer that feeds `requestChan`: the fixed URL (lines 192-197) or the URLs
read from the file (lines 199-210). -/
inductive RequestSource where
  | fixed (method url : Str) (header : Header) (username password : Str)
  | fromFile (fd : File) (method : Str) (header : Header) (username password : Str)

/-- The `boomer.Boomer` value that `main` runs (lines 213-227). -/
structure Boomer where
  RequestChan : RequestSource
  RequestBody : Str
  N : Int
  T : Int
  C : Int
  Qps : Int
  Timeout : Int
  AllowInsecure : Bool
  DisableCompression : Bool
  DisableKeepAlives : Bool
  ProxyAddr : Option Str
  Output : Str
  ReadAll : Bool

/-- Lines 179-186 of `main`: the proxy address. -/
def parseProxy (env : Env) (proxyAddr : Str) : Except Exit (Option Str) :=
  if proxyAddr ≠ [] then
    match env.parseURL proxyAddr with
    | .error err => .error (usageAndExit err)
    | .ok u => .ok (some u)
  else .ok none

/-- Lines 190-211 of `main`: the URL source. -/
def requestSource (env : Env) (file method url : Str) (header : Header)
    (username password : Str) : Except Exit RequestSource :=
  if file.length = 0 then .ok (.fixed method url header username password)
  else
    match buildUrlChan (env.openFile file) with
    | .error err => .error (usageAndExit err)
    | .ok fd => .ok (.fromFile fd method header username password)

/-- A value of Go's `int` or `int64` (64 bits). -/
def isInt64 (x : Int) : Bool := decide (-9223372036854775808 ≤ x ∧ x ≤ 9223372036854775807)

/-- The integer flags hold values that `flag.Parse()` can store. -/
def Flags.inRange (fl : Flags) : Bool :=
  isInt64 fl.c && isInt64 fl.n && isInt64 fl.t && isInt64 fl.q && isInt64 fl.s
    && isInt64 fl.cpus && isInt64 fl.port

/-- What `flag.Parse()` (boom.go 110) does with the command line: on an unknown or
malformed flag it ends the process itself (an error line and the usage text, exit status
2); otherwise it returns with the flag variables and the positional arguments set. -/
inductive Parsed where
  | exited (e : Exit)
  | flags (fl : Flags) (ok : fl.inRange = true)

/-- Function `main` (boom.go 100-228), up to the call of `Run`: the exit, or the engine
configuration. The profiling server and `GOMAXPROCS` are left out. -/
def main (parsed : Parsed) (env : Env) : Except Exit Boomer :=
  match parsed with
  | .exited e => .error e
  | .flags fl _ =>
    if fl.args.length < 1 then .error (usageAndExit [])
    else
      match resolveCountDuration fl.n fl.c fl.t with
      | .error e => .error e
      | .ok r =>
        let url := fl.args.headD []
        let method := env.toUpper fl.m
        match assembleHeader fl.contentType fl.k fl.headers fl.accept env.now with
        | .error e => .error e
        | .ok header =>
          match parseAuth fl.authHeader with
          | .error e => .error e
          | .ok (username, password) =>
            if fl.output ≠ "csv".toList ∧ fl.output ≠ [] then
              .error (usageAndExit "Invalid output type; only csv is supported.".toList)
            else
              match parseProxy env fl.proxyAddr with
              | .error e => .error e
              | .ok proxyURL =>
                match requestSource env fl.file method url header username password with
                | .error e => .error e
                | .ok requestChan =>
                  .ok { RequestChan := requestChan, RequestBody := fl.body, N := r.num,
                        T := r.timelimit, C := r.conc, Qps := fl.q, Timeout := fl.s,
                        AllowInsecure := fl.insecure,
                        DisableCompression := fl.disableCompression,
                        DisableKeepAlives := fl.disableKeepAlives, ProxyAddr := proxyURL,
                        Output := fl.output, ReadAll := fl.readAll }

/-- An environment in which the file opens, the proxy address parses and every request
can be built; the clock reads 2024-01-01 12:00. -/
def exampleEnv : Env :=
  { now := ⟨2024, 1, 1, 12, 0, 0, 0⟩, toUpper := fun m => m.map Char.toUpper,
    parseURL := fun u => .ok u, openFile := fun _ => .ok [97, 10],
    newRequestErr := fun _ _ => none }

/-- The command line `boom http://x/y`: every flag at its default. -/
def invocationDefault : Parsed :=
  .flags (Flags.defaults 4 ["http://x/y".toList]) (by decide)

/-- The command line `boom -t 30 http://x/y`. -/
def invocationTimed : Parsed :=
  .flags { Flags.defaults 4 ["http://x/y".toList] with t := 30 } (by decide)

/-- The command line `boom -f urls.txt`: a URL file and no positional argument. -/
def invocationFileOnly : Parsed :=
  .flags { Flags.defaults 4 [] with file := "urls.txt".toList } (by decide)

/-- The command line `boom -f urls.txt http://x/y`. -/
def invocationFileAndUrl : Parsed :=
  .flags { Flags.defaults 4 ["http://x/y".toList] with file := "urls.txt".toList } (by decide)

/-! ## Definitions that follow the words of the specification -/

/-- A header piece as the specification describes a match: one or more characters of
`[0-9A-Za-z_-]`, a colon, optional whitespace, then a character that is not a newline. -/
def HeaderShape (seg : Str) : Prop :=
  ∃ (name ws : Str) (c : Char) (rest : Str),
    seg = name ++ ':' :: (ws ++ c :: rest) ∧ name ≠ [] ∧
    (∀ x ∈ name, isWordDash x = true) ∧ (∀ x ∈ ws, isSpace x = true) ∧ c ≠ '\n'

/-- The name of a header piece: its leading run of `[\w-]` characters. -/
def headerName (seg : Str) : Str := seg.takeWhile isWordDash

/-- The text of a header piece after the colon that ends the name. -/
def afterColon (seg : Str) : Str := (seg.dropWhile isWordDash).drop 1

/-- The value the specification states: the text after the colon without its leading
whitespace. -/
def claimedValue (r : Str) : Str := r.dropWhile isSpace

/-- The value the pattern captures: when the text after the colon has a character that
is not whitespace, that text without its leading whitespace and cut before its first
newline; when it is all whitespace, its last character other than a newline. -/
def headerValue (r : Str) : Str :=
  if r.dropWhile isSpace ≠ [] then (r.dropWhile isSpace).takeWhile isDot
  else ((r.filter isDot).getLast?).toList

/-- The value of `headerValue`, or `none` when the text after the colon cannot be
matched by `\s*(.+)`. -/
def headerValue? (r : Str) : Option Str :=
  if r.dropWhile isSpace ≠ [] then some ((r.dropWhile isSpace).takeWhile isDot)
  else ((r.filter isDot).getLast?).map (fun c => [c])

/-- Name and value of a header piece, or `none` when the piece does not match. -/
def headerPair? (seg : Str) : Option (Str × Str) :=
  match seg.dropWhile isWordDash with
  | c :: r =>
    if seg.takeWhile isWordDash ≠ [] ∧ c = ':' then
      (headerValue? r).map (fun v => (seg.takeWhile isWordDash, v))
    else none
  | [] => none

/-- Name and value that a matching header piece contributes. -/
def headerPair (seg : Str) : Str × Str := (headerName seg, headerValue (afterColon seg))

/-- The custom headers of `-h`, in their listed order (none when `-h` is empty). -/
def customHeaders (headers : Str) : List (Str × Str) :=
  if headers ≠ [] then (splitSep ';' headers).map headerPair else []

/-- The header set after the given writes, applied in order with `Header.Set`. -/
def applyWrites (writes : List (Str × Str)) (h : Header) : Header :=
  writes.foldl (fun hd w => hd.Set w.1 w.2) h

/-- Two names that differ at most in letter case. -/
def equalFold (a b : Str) : Prop := a.map Char.toLower = b.map Char.toLower

/-- The value of the last write in `writes` whose key has the canonical form `key`. -/
def lastWrite (key : Str) (writes : List (Str × Str)) : Option Str :=
  (writes.reverse.find? (fun w => decide (canonicalMIMEHeaderKey w.1 = key))).map (·.2)

/-- The writes of `assembleHeader`, in order, given the custom headers. -/
def headerWrites (contentType flag : Str) (customs : List (Str × Str)) (accept : Str) :
    List (Str × Str) :=
  [("Content-Type".toList, contentType), ("X-Perf-Test".toList, flag)] ++ customs
    ++ (if accept ≠ [] then [("Accept".toList, accept)] else [])

/-- The lines of a file: the pieces between newlines, the piece after the last newline
only when it is not empty. -/
def rawLines (content : List UInt8) : List (List UInt8) :=
  let segs := splitSep 10 content
  if segs.getLast? = some [] then segs.dropLast else segs

/-- The lines of a file as URLs: each line without one trailing carriage return. -/
def fileLines (content : List UInt8) : List (List UInt8) := (rawLines content).map dropCR

/-- The lines of a file that are not empty. -/
def nonEmptyLines (content : List UInt8) : List (List UInt8) :=
  (fileLines content).filter (· ≠ [])

/-- Two times in the same hour bucket. -/
def sameHourBucket (t1 t2 : Time) : Prop :=
  t1.year = t2.year ∧ t1.month = t2.month ∧ t1.day = t2.day ∧ t1.hour = t2.hour

/-! ## Lemmas on the matcher -/

theorem starSplits_head (p : Char → Bool) (s : Str) :
    ∃ tl, starSplits p s = (s.takeWhile p, s.dropWhile p) :: tl ∧
      ∀ x ∈ tl, ∃ c r, x.2 = c :: r ∧ p c = true := by
  induction s with
  | nil => exact ⟨[], by simp [starSplits], by simp⟩
  | cons c cs ih =>
    obtain ⟨tl, htl, hall⟩ := ih
    by_cases hc : p c = true
    · refine ⟨tl.map (fun x => (c :: x.1, x.2)) ++ [([], c :: cs)], ?_, ?_⟩
      · simp [starSplits, hc, htl, List.takeWhile, List.dropWhile]
      · intro x hx
        simp only [List.mem_append, List.mem_map, List.mem_singleton] at hx
        rcases hx with ⟨y, hy, rfl⟩ | rfl
        · exact hall y hy
        · exact ⟨c, cs, rfl, hc⟩
    · refine ⟨[], ?_, by simp⟩
      simp [starSplits, hc, List.takeWhile, List.dropWhile]

theorem starSplits_rest_suffix (p : Char → Bool) (s : Str) :
    ∀ x ∈ starSplits p s, x.1 ++ x.2 = s := by
  induction s with
  | nil => simp [starSplits]
  | cons c cs ih =>
    intro x hx
    by_cases hc : p c = true
    · simp only [starSplits, hc, if_true, List.mem_append, List.mem_map, List.mem_singleton] at hx
      rcases hx with ⟨y, hy, rfl⟩ | rfl
      · simp [ih y hy]
      · simp
    · simp [starSplits, hc] at hx
      subst hx; simp

theorem head?_flatMap_of_tail_nil {α β : Type} (f : α → List β) (a : α) (tl : List α)
    (h : ∀ x ∈ tl, f x = []) : (a :: tl).flatMap f = f a := by
  have : tl.flatMap f = [] := by
    simp only [List.flatMap_eq_nil_iff]; exact h
  simp [List.flatMap_cons, this]

theorem plus_matches_flag (p : Char → Bool) (b : Bool) (s : Str) :
    (Regex.plus p).matches b s = (Regex.plus p).matches false s := by
  cases s <;> rfl

theorem plus_matches_head (p : Char → Bool) (b : Bool) (c : Char) (cs : Str) (hc : p c = true) :
    ((Regex.plus p).matches b (c :: cs)).head?
      = some ⟨(c :: cs).takeWhile p, (c :: cs).dropWhile p, []⟩ := by
  obtain ⟨tl, htl, -⟩ := starSplits_head p cs
  simp [Regex.matches, hc, htl, List.takeWhile, List.dropWhile]

theorem plus_matches_nil_of_not (p : Char → Bool) (b : Bool) (c : Char) (cs : Str)
    (hc : p c = false) : (Regex.plus p).matches b (c :: cs) = [] := by
  simp [Regex.matches, hc]

/-- The capture lists that `\s*(.+)` can produce on `r`, in priority order. -/
theorem value_groups (b : Bool) (r : Str) :
    ((Regex.seq (.star isSpace) (.group (.plus isDot))).matches b r).map (·.groups)
      = (starSplits isSpace r).flatMap
          (fun x => ((Regex.plus isDot).matches false x.2).map (fun m => [m.consumed])) := by
  simp only [Regex.matches, List.flatMap_map, List.map_flatMap, List.map_map]
  congr 1
  funext x
  rcases x with ⟨a, s⟩
  cases s with
  | nil => simp
  | cons c cs => by_cases hc : isDot c = true <;> simp [hc, Function.comp_def]

theorem value_groups_cons_space (c : Char) (cs : Str) (hc : isSpace c = true) :
    (starSplits isSpace (c :: cs)).flatMap
        (fun x => ((Regex.plus isDot).matches false x.2).map (fun m => [m.consumed]))
      = (starSplits isSpace cs).flatMap
          (fun x => ((Regex.plus isDot).matches false x.2).map (fun m => [m.consumed]))
        ++ ((Regex.plus isDot).matches false (c :: cs)).map (fun m => [m.consumed]) := by
  simp [starSplits, hc, List.flatMap_append, List.flatMap_map]

theorem isDot_of_not_isSpace (c : Char) (h : isSpace c = false) : isDot c = true := by
  unfold isSpace at h
  unfold isDot
  simp only [Bool.or_eq_false_iff, beq_eq_false_iff_ne] at h
  simp [h.1.1.1.2]

theorem takeWhile_eq_nil_of_filter_nil (p : Char → Bool) (s : Str) (h : s.filter p = []) :
    s.takeWhile p = [] := by
  cases s with
  | nil => rfl
  | cons c cs =>
    have : p c = false := by
      by_contra hc
      simp only [Bool.not_eq_false] at hc
      simp [List.filter, hc] at h
    simp [List.takeWhile, this]

/-- Group 2 of the header pattern, read off the text after the colon. -/
theorem value_head (b : Bool) (r : Str) :
    (((Regex.seq (.star isSpace) (.group (.plus isDot))).matches b r).head?).map (·.groups)
      = (headerValue? r).map (fun v => [v]) := by
  rw [← List.head?_map, value_groups]
  induction r with
  | nil => simp [starSplits, Regex.matches, headerValue?]
  | cons c cs ih =>
    by_cases hc : isSpace c = true
    · rw [value_groups_cons_space c cs hc, List.head?_append, ih]
      unfold headerValue?
      simp only [List.dropWhile_cons, hc, if_true]
      by_cases hd : List.dropWhile isSpace cs = []
      · simp only [hd, ne_eq, not_true_eq_false, if_false]
        by_cases hf : cs.filter isDot = []
        · by_cases hdc : isDot c = true
          · rw [List.head?_map, plus_matches_head isDot false c cs hdc]
            simp [hf, List.filter, hdc, List.takeWhile, takeWhile_eq_nil_of_filter_nil isDot cs hf]
          · simp only [Bool.not_eq_true] at hdc
            simp [hf, List.filter, hdc, plus_matches_nil_of_not isDot false c cs hdc]
        · obtain ⟨y, hy⟩ := Option.isSome_iff_exists.mp
            (by simpa [List.getLast?_isSome] using hf : ((cs.filter isDot).getLast?).isSome)
          by_cases hdc : isDot c = true
          · simp [hy, List.filter, hdc, List.getLast?_cons, Option.getD]
          · simp only [Bool.not_eq_true] at hdc
            simp [hy, List.filter, hdc]
      · simp [hd]
    · simp only [Bool.not_eq_true] at hc
      have hdc := isDot_of_not_isSpace c hc
      simp only [starSplits, hc, Bool.false_eq_true, if_false, List.flatMap_cons, List.flatMap_nil,
        List.append_nil]
      rw [List.head?_map, plus_matches_head isDot false c cs hdc]
      simp [headerValue?, List.dropWhile, hc]

theorem seq_bot_matches_true (r : Regex) (s : Str) :
    ((Regex.seq .bot r).matches true s).map (·.groups) = (r.matches true s).map (·.groups) := by
  simp [Regex.matches, Function.comp_def]

theorem seq_bot_matches_false (r : Regex) (s : Str) :
    (Regex.seq .bot r).matches false s = [] := by
  simp [Regex.matches]

theorem seq_cls_matches (p : Char → Bool) (r : Regex) (b : Bool) (s : Str) :
    (Regex.seq (.cls p) r).matches b s =
      match s with
      | c :: cs =>
        if p c then (r.matches false cs).map (fun m => ⟨c :: m.consumed, m.rest, m.groups⟩)
        else []
      | [] => [] := by
  cases s with
  | nil => simp [Regex.matches]
  | cons c cs => by_cases hc : p c = true <;> simp [Regex.matches, hc]

/-- A greedy class run in a group, followed by something that cannot start with a
character of the class: only the longest run survives backtracking. -/
theorem seq_group_plus_matches (p : Char → Bool) (r : Regex) (b : Bool) (s : Str)
    (hr : ∀ (b1 : Bool) (c : Char) (t : Str), p c = true → r.matches b1 (c :: t) = []) :
    (Regex.seq (.group (.plus p)) r).matches b s =
      match s with
      | c :: _ =>
        if p c then
          (r.matches false (s.dropWhile p)).map
            (fun m => ⟨s.takeWhile p ++ m.consumed, m.rest, s.takeWhile p :: m.groups⟩)
        else []
      | [] => [] := by
  cases s with
  | nil => simp [Regex.matches]
  | cons c cs =>
    by_cases hc : p c = true
    · obtain ⟨tl, htl, hall⟩ := starSplits_head p cs
      simp only [Regex.matches, hc, if_true, htl, List.map_cons, List.map_map, List.flatMap_cons]
      have htail : (List.map ((fun (m : Match) => (⟨m.consumed, m.rest, m.consumed :: m.groups⟩ : Match)) ∘
            fun (x : Str × Str) => (⟨c :: x.1, x.2, []⟩ : Match)) tl).flatMap
          (fun m1 => List.map (fun (m2 : Match) =>
              (⟨m1.consumed ++ m2.consumed, m2.rest, m1.groups ++ m2.groups⟩ : Match))
            (r.matches (b && m1.consumed.isEmpty) m1.rest)) = [] := by
        simp only [List.flatMap_eq_nil_iff, List.mem_map, Function.comp_apply]
        rintro m ⟨x, hx, rfl⟩
        obtain ⟨c1, t, hxt, hc1⟩ := hall x hx
        simp [hxt, hr _ c1 t hc1]
      rw [htail]
      simp [List.takeWhile, List.dropWhile, hc]
    · simp [Regex.matches, hc]

theorem isColon_of_isWordDash (c : Char) (h : isWordDash c = true) : isColon c = false := by
  unfold isColon
  rw [beq_eq_false_iff_ne]
  rintro rfl
  revert h
  decide

theorem header_groups (seg : Str) :
    ((headerRegexp.matches true seg).head?).map (·.groups)
      = (headerPair? seg).map (fun nv => [nv.1, nv.2]) := by
  unfold headerRegexp
  rw [← List.head?_map, seq_bot_matches_true, seq_group_plus_matches]
  · unfold headerPair?
    cases seg with
    | nil => simp
    | cons c cs =>
      by_cases hc : isWordDash c = true
      · simp only [hc, if_true]
        rw [seq_cls_matches]
        have hne : List.takeWhile isWordDash (c :: cs) ≠ [] := by simp [List.takeWhile, hc]
        cases hd : List.dropWhile isWordDash (c :: cs) with
        | nil => simp
        | cons d r =>
          by_cases hcol : d = ':'
          · subst hcol
            have := value_head false r
            rw [← List.head?_map] at this
            simp only [isColon, beq_self_eq_true, if_true, List.map_map, hne, ne_eq,
              not_false_eq_true, and_self]
            rw [List.head?_map]
            cases hm : (Regex.seq (.star isSpace) (.group (.plus isDot))).matches false r with
            | nil =>
              rw [hm] at this
              cases hv : headerValue? r with
              | none => simp
              | some v => rw [hv] at this; simp at this
            | cons m ms =>
              rw [hm] at this
              cases hv : headerValue? r with
              | none => rw [hv] at this; simp at this
              | some v =>
                rw [hv] at this
                simp only [List.map_cons, List.head?_cons, Option.map_some', Option.some.injEq] at this
                simp [this]
          · have : isColon d = false := by simp [isColon, hcol]
            simp [this, hcol]
      · simp only [Bool.not_eq_true] at hc
        simp [hc, List.dropWhile, List.takeWhile]
  · intro b1 c t hc
    rw [seq_cls_matches]
    simp [isColon_of_isWordDash c hc]

theorem findFrom_anchored_false (r : Regex) (s : Str) :
    findFrom (.seq .bot r) false s = [] := by
  induction s with
  | nil => simp [findFrom, seq_bot_matches_false]
  | cons c cs ih => simp [findFrom, seq_bot_matches_false, ih]

theorem findFrom_anchored (r : Regex) (s : Str) :
    findFrom (.seq .bot r) true s =
      match ((Regex.seq .bot r).matches true s).head? with
      | some m => m.consumed :: m.groups
      | none => [] := by
  cases s with
  | nil => cases h : ((Regex.seq .bot r).matches true []).head? <;> simp [findFrom, h]
  | cons c cs =>
    cases h : ((Regex.seq .bot r).matches true (c :: cs)).head? <;>
      simp [findFrom, h, findFrom_anchored_false]

theorem parse_header_ok (seg name value : Str) (h : headerPair? seg = some (name, value)) :
    ∃ whole, parseInputWithRegexp seg headerRegexp = .ok [whole, name, value] := by
  have hg := header_groups seg
  rw [h] at hg
  cases hm : (headerRegexp.matches true seg).head? with
  | none => rw [hm] at hg; simp at hg
  | some m =>
    rw [hm] at hg
    simp only [Option.map_some', Option.some.injEq] at hg
    refine ⟨m.consumed, ?_⟩
    have hf : findFrom headerRegexp true seg = m.consumed :: m.groups := by
      have := findFrom_anchored
        (.seq (.group (.plus isWordDash))
          (.seq (.cls isColon) (.seq (.star isSpace) (.group (.plus isDot))))) seg
      unfold headerRegexp at hm ⊢
      rw [this, hm]
    unfold parseInputWithRegexp
    simp only [hf, hg]
    rfl

theorem parse_header_err (seg : Str) (h : headerPair? seg = none) :
    parseInputWithRegexp seg headerRegexp
      = .error ("could not parse the provided input; input = ".toList ++ seg) := by
  have hg := header_groups seg
  rw [h] at hg
  cases hm : (headerRegexp.matches true seg).head? with
  | some m => rw [hm] at hg; simp at hg
  | none =>
    have hf : findFrom headerRegexp true seg = [] := by
      have := findFrom_anchored
        (.seq (.group (.plus isWordDash))
          (.seq (.cls isColon) (.seq (.star isSpace) (.group (.plus isDot))))) seg
      unfold headerRegexp at hm ⊢
      rw [this, hm]
    unfold parseInputWithRegexp
    simp only [hf]
    rfl

theorem isSpace_newline : isSpace '\n' = true := by decide

theorem isWordDash_colon : isWordDash ':' = false := by decide

theorem isDot_iff (c : Char) : isDot c = true ↔ c ≠ '\n' := by
  simp [isDot]

theorem takeWhile_append_stop (p : Char → Bool) (a : Str) (c : Char) (t : Str)
    (ha : ∀ x ∈ a, p x = true) (hc : p c = false) :
    (a ++ c :: t).takeWhile p = a ∧ (a ++ c :: t).dropWhile p = c :: t := by
  induction a with
  | nil => simp [List.takeWhile, List.dropWhile, hc]
  | cons x xs ih =>
    have hx : p x = true := ha x (List.mem_cons_self _ _)
    have := ih (fun y hy => ha y (List.mem_cons_of_mem _ hy))
    simp [List.takeWhile, List.dropWhile, hx, this]

theorem all_of_dropWhile_nil (p : Char → Bool) (s : Str) (h : s.dropWhile p = []) :
    ∀ x ∈ s, p x = true := by
  induction s with
  | nil => simp
  | cons c cs ih =>
    by_cases hc : p c = true
    · simp only [List.dropWhile, hc] at h
      intro x hx
      rcases List.mem_cons.mp hx with rfl | hx
      · exact hc
      · exact ih h x hx
    · simp only [Bool.not_eq_true] at hc
      simp [List.dropWhile, hc] at h

theorem dropWhile_head_not (p : Char → Bool) (s : Str) (c : Char) (t : Str)
    (h : s.dropWhile p = c :: t) : p c = false := by
  induction s with
  | nil => simp at h
  | cons x xs ih =>
    by_cases hx : p x = true
    · simp only [List.dropWhile, hx] at h
      exact ih h
    · simp only [Bool.not_eq_true] at hx
      simp only [List.dropWhile, hx] at h
      cases h
      exact hx

theorem mem_takeWhile_imp (p : Char → Bool) (s : Str) : ∀ x ∈ s.takeWhile p, p x = true := by
  induction s with
  | nil => simp
  | cons c cs ih =>
    by_cases hc : p c = true
    · intro x hx
      simp only [List.takeWhile, hc, List.mem_cons] at hx
      rcases hx with rfl | hx
      · exact hc
      · exact ih x hx
    · simp only [Bool.not_eq_true] at hc
      simp [List.takeWhile, hc]

theorem headerValue?_isSome_iff (r : Str) :
    (headerValue? r).isSome = true ↔
      ∃ (ws : Str) (c : Char) (rest : Str),
        r = ws ++ c :: rest ∧ (∀ x ∈ ws, isSpace x = true) ∧ c ≠ '\n' := by
  constructor
  · intro h
    unfold headerValue? at h
    by_cases hd : List.dropWhile isSpace r = []
    · simp only [hd, ne_eq, not_true_eq_false, if_false, Option.isSome_map'] at h
      have hall := all_of_dropWhile_nil isSpace r hd
      obtain ⟨c, hc⟩ := Option.isSome_iff_exists.mp h
      have hmem : c ∈ r.filter isDot := List.mem_of_getLast?_eq_some hc
      rw [List.mem_filter] at hmem
      obtain ⟨ws, rest, hr⟩ := List.append_of_mem hmem.1
      refine ⟨ws, c, rest, hr, ?_, (isDot_iff c).mp hmem.2⟩
      intro x hx
      exact hall x (by rw [hr]; simp [hx])
    · cases hdr : List.dropWhile isSpace r with
      | nil => exact absurd hdr hd
      | cons c rest =>
        refine ⟨r.takeWhile isSpace, c, rest, ?_, mem_takeWhile_imp isSpace r, ?_⟩
        · rw [← hdr, List.takeWhile_append_dropWhile]
        · have := dropWhile_head_not isSpace r c rest hdr
          rintro rfl
          rw [isSpace_newline] at this
          cases this
  · rintro ⟨ws, c, rest, hr, hws, hc⟩
    unfold headerValue?
    by_cases hd : List.dropWhile isSpace r = []
    · simp only [hd, ne_eq, not_true_eq_false, if_false, Option.isSome_map']
      have hmem : c ∈ r.filter isDot := by
        rw [List.mem_filter]
        exact ⟨by rw [hr]; simp, (isDot_iff c).mpr hc⟩
      cases hl : (r.filter isDot).getLast? with
      | none =>
        rw [List.getLast?_eq_none_iff] at hl
        rw [hl] at hmem
        simp at hmem
      | some _ => rfl
    · simp [hd]

theorem headerPair?_isSome_iff (seg : Str) :
    (headerPair? seg).isSome = true ↔ HeaderShape seg := by
  constructor
  · intro h
    unfold headerPair? at h
    cases hd : List.dropWhile isWordDash seg with
    | nil => rw [hd] at h; simp at h
    | cons c r =>
      rw [hd] at h
      by_cases hcond : List.takeWhile isWordDash seg ≠ [] ∧ c = ':'
      · simp only [hcond, ne_eq, not_false_eq_true, and_self, if_true, Option.isSome_map'] at h
        obtain ⟨ws, d, rest, hr, hws, hdne⟩ := (headerValue?_isSome_iff r).mp h
        refine ⟨seg.takeWhile isWordDash, ws, d, rest, ?_, hcond.1,
          mem_takeWhile_imp isWordDash seg, hws, hdne⟩
        rw [← hr, ← hcond.2, ← hd, List.takeWhile_append_dropWhile]
      · simp only [if_neg hcond] at h
        cases h
  · rintro ⟨name, ws, c, rest, hseg, hne, hname, hws, hc⟩
    obtain ⟨ht, hd⟩ := takeWhile_append_stop isWordDash name ':' (ws ++ c :: rest) hname
      isWordDash_colon
    unfold headerPair?
    rw [hseg, hd, ht]
    simp only [ne_eq, hne, not_false_eq_true, and_self, if_true, Option.isSome_map']
    exact (headerValue?_isSome_iff _).mpr ⟨ws, c, rest, rfl, hws, hc⟩

theorem starSplits_append (p : Char → Bool) (a t : Str) (ha : ∀ x ∈ a, p x = true) :
    ∃ L, starSplits p (a ++ t) = (starSplits p t).map (fun x => (a ++ x.1, x.2)) ++ L := by
  induction a with
  | nil => exact ⟨[], by simp⟩
  | cons c cs ih =>
    obtain ⟨L, hL⟩ := ih (fun y hy => ha y (List.mem_cons_of_mem _ hy))
    have hc : p c = true := ha c (List.mem_cons_self _ _)
    refine ⟨L.map (fun x => (c :: x.1, x.2)) ++ [([], c :: (cs ++ t))], ?_⟩
    simp [starSplits, hc, hL, Function.comp_def]

theorem seq_group_plus_expand (p : Char → Bool) (r : Regex) (b : Bool) (c0 : Char) (s : Str)
    (hc0 : p c0 = true) :
    (Regex.seq (.group (.plus p)) r).matches b (c0 :: s) =
      (starSplits p s).flatMap (fun x =>
        (r.matches false x.2).map
          (fun m => ⟨c0 :: x.1 ++ m.consumed, m.rest, (c0 :: x.1) :: m.groups⟩)) := by
  simp [Regex.matches, hc0, List.flatMap_map, Function.comp_def]

theorem takeWhile_all (p : Char → Bool) (s : Str) (h : ∀ x ∈ s, p x = true) :
    s.takeWhile p = s ∧ s.dropWhile p = [] := by
  induction s with
  | nil => simp
  | cons c cs ih =>
    have hc : p c = true := h c (List.mem_cons_self _ _)
    have := ih (fun y hy => h y (List.mem_cons_of_mem _ hy))
    simp [List.takeWhile, List.dropWhile, hc, this]

theorem isDot_colon : isDot ':' = true := by decide

theorem group_matches (r : Regex) (b : Bool) (s : Str) :
    (Regex.group r).matches b s
      = (r.matches b s).map (fun m => ⟨m.consumed, m.rest, m.consumed :: m.groups⟩) := by
  simp only [Regex.matches]

/-- The password part `[^\s].+` of the auth pattern on a newline-free text of two or more
characters that does not start with whitespace: it takes the whole text. -/
theorem auth_password_matches (d e : Char) (t : Str) (hd : isSpace d = false)
    (hall : ∀ x ∈ e :: t, isDot x = true) :
    ((Regex.group (.seq (.cls notSpace) (.plus isDot))).matches false (d :: e :: t)).head?
      = some ⟨d :: e :: t, [], [d :: e :: t]⟩ := by
  have hns : notSpace d = true := by simp [notSpace, hd]
  have he : isDot e = true := hall e (List.mem_cons_self _ _)
  have hp := plus_matches_head isDot false e t he
  obtain ⟨htw, hdw⟩ := takeWhile_all isDot (e :: t) hall
  rw [htw, hdw] at hp
  rw [group_matches, seq_cls_matches]
  simp only [hns, if_true, List.map_map, List.head?_map, hp]
  simp

theorem auth_matches (b : Bool) (c0 : Char) (u p : Str) (hc0 : isDot c0 = true)
    (hu : ∀ x ∈ u, isDot x = true) (hp : ∀ x ∈ p, isDot x = true) (hpc : ':' ∉ p)
    (hlen : 2 ≤ p.length) (hsp : ∀ c ∈ p.head?, isSpace c = false) :
    ((Regex.seq (.group (.plus isDot))
        (.seq (.cls isColon) (.group (.seq (.cls notSpace) (.plus isDot))))).matches b
        (c0 :: (u ++ ':' :: p))).head?
      = some ⟨c0 :: (u ++ ':' :: p), [], [c0 :: u, p]⟩ := by
  rw [seq_group_plus_expand _ _ _ _ _ hc0]
  obtain ⟨L, hL⟩ := starSplits_append isDot u (':' :: p) hu
  rw [hL]
  simp only [starSplits, isDot_colon, if_true, List.map_append, List.map_map, List.flatMap_append,
    List.flatMap_map, List.map_cons, List.map_nil, List.flatMap_cons, List.flatMap_nil,
    List.append_nil, Function.comp_def]
  have hfail : (starSplits isDot p).flatMap (fun x =>
      List.map (fun (m : Match) =>
          (⟨c0 :: (u ++ ':' :: x.1) ++ m.consumed, m.rest, (c0 :: (u ++ ':' :: x.1)) :: m.groups⟩ : Match))
        ((Regex.seq (.cls isColon) (.group (.seq (.cls notSpace) (.plus isDot)))).matches false x.2))
      = [] := by
    simp only [List.flatMap_eq_nil_iff, List.map_eq_nil_iff]
    intro x hx
    rw [seq_cls_matches]
    have hsuf := starSplits_rest_suffix isDot p x hx
    cases hx2 : x.2 with
    | nil => rfl
    | cons c t =>
      have hne : c ≠ ':' := by
        rintro rfl
        apply hpc
        rw [← hsuf, hx2]
        simp
      simp [isColon, hne]
  rw [hfail]
  match p, hp, hlen, hsp with
  | d :: e :: t, hp, _, hsp =>
    have hd : isSpace d = false := hsp d (by simp)
    have hm := auth_password_matches d e t hd (fun x hx => hp x (List.mem_cons_of_mem _ hx))
    rw [List.nil_append, List.head?_append, seq_cls_matches]
    simp only [isColon, beq_self_eq_true, if_true, List.map_map, List.head?_map, hm]
    simp

theorem seq_bot_matches (r : Regex) (s : Str) :
    (Regex.seq .bot r).matches true s = r.matches true s := by
  simp [Regex.matches]

theorem not_mem_imp_isDot (s : Str) (h : '\n' ∉ s) : ∀ x ∈ s, isDot x = true := by
  intro x hx
  rw [isDot_iff]
  rintro rfl
  exact h hx

theorem auth_parse_ok (u p : Str) (hu : u ≠ []) (hun : '\n' ∉ u) (hpn : '\n' ∉ p)
    (hpc : ':' ∉ p) (hlen : 2 ≤ p.length) (hsp : ∀ c ∈ p.head?, isSpace c = false) :
    parseInputWithRegexp (u ++ ':' :: p) authRegexp = .ok [u ++ ':' :: p, u, p] := by
  match u, hu, hun with
  | c0 :: u1, _, hun =>
    have hall := not_mem_imp_isDot (c0 :: u1) hun
    have hm := auth_matches true c0 u1 p (hall c0 (List.mem_cons_self _ _))
      (fun x hx => hall x (List.mem_cons_of_mem _ hx)) (not_mem_imp_isDot p hpn) hpc hlen hsp
    have hf : findFrom authRegexp true (c0 :: (u1 ++ ':' :: p))
        = [c0 :: (u1 ++ ':' :: p), c0 :: u1, p] := by
      unfold authRegexp
      rw [findFrom_anchored, seq_bot_matches, hm]
    show parseInputWithRegexp (c0 :: (u1 ++ ':' :: p)) authRegexp = _
    unfold parseInputWithRegexp
    simp only [hf]
    rfl

theorem auth_matches_nil_of_no_colon (b : Bool) (s : Str) (h : ':' ∉ s) :
    (Regex.seq (.group (.plus isDot))
        (.seq (.cls isColon) (.group (.seq (.cls notSpace) (.plus isDot))))).matches b s = [] := by
  cases s with
  | nil => simp [Regex.matches]
  | cons c0 cs =>
    by_cases hc0 : isDot c0 = true
    · rw [seq_group_plus_expand _ _ _ _ _ hc0]
      simp only [List.flatMap_eq_nil_iff, List.map_eq_nil_iff]
      intro x hx
      rw [seq_cls_matches]
      have hsuf := starSplits_rest_suffix isDot cs x hx
      cases hx2 : x.2 with
      | nil => rfl
      | cons c t =>
        have hne : c ≠ ':' := by
          rintro rfl
          apply h
          rw [← hsuf, hx2]
          simp
        simp [isColon, hne]
    · simp only [Bool.not_eq_true] at hc0
      simp [Regex.matches, hc0]

theorem auth_parse_no_colon (s : Str) (h : ':' ∉ s) :
    parseInputWithRegexp s authRegexp
      = .error ("could not parse the provided input; input = ".toList ++ s) := by
  have hf : findFrom authRegexp true s = [] := by
    unfold authRegexp
    rw [findFrom_anchored, seq_bot_matches, auth_matches_nil_of_no_colon true s h]
    rfl
  unfold parseInputWithRegexp
  simp only [hf]
  rfl

theorem headerPair?_none_of_no_colon (seg : Str) (h : ':' ∉ seg) : headerPair? seg = none := by
  unfold headerPair?
  cases hd : List.dropWhile isWordDash seg with
  | nil => rfl
  | cons c r =>
    have hc : c ≠ ':' := by
      rintro rfl
      apply h
      have : ':' ∈ List.dropWhile isWordDash seg := by rw [hd]; simp
      exact (List.dropWhile_suffix isWordDash).subset this
    simp [hc]


/-! ## Lemmas on header keys -/

set_option maxRecDepth 100000 in
theorem toNat_ofNat_small : ∀ n, n < 256 → (Char.ofNat n).toNat = n := by decide

theorem toLower_eq_cases (c d : Char) (h : c.toLower = d.toLower) :
    c = d ∨ (isUpper c = true ∧ d = Char.ofNat (c.toNat + 32)) ∨
      (isUpper d = true ∧ c = Char.ofNat (d.toNat + 32)) := by
  unfold Char.toLower at h
  simp only [ge_iff_le] at h
  by_cases hc : 65 ≤ c.toNat ∧ c.toNat ≤ 90
  · by_cases hd : 65 ≤ d.toNat ∧ d.toNat ≤ 90
    · rw [if_pos hc, if_pos hd] at h
      left
      have h1 := congrArg Char.toNat h
      rw [toNat_ofNat_small _ (by omega), toNat_ofNat_small _ (by omega)] at h1
      have h2 : c.toNat = d.toNat := by omega
      rw [← Char.ofNat_toNat c, ← Char.ofNat_toNat d, h2]
    · rw [if_pos hc, if_neg hd] at h
      right; left
      exact ⟨by simp [isUpper, hc], h.symm⟩
  · by_cases hd : 65 ≤ d.toNat ∧ d.toNat ≤ 90
    · rw [if_neg hc, if_pos hd] at h
      right; right
      exact ⟨by simp [isUpper, hd], h⟩
    · rw [if_neg hc, if_neg hd] at h
      exact Or.inl h

theorem canonChar_upper_pair (u : Bool) (c : Char) (hc : isUpper c = true) :
    canonChar u c = canonChar u (Char.ofNat (c.toNat + 32)) ∧
      validHeaderFieldByte (Char.ofNat (c.toNat + 32)) = true ∧ validHeaderFieldByte c = true := by
  simp only [isUpper, Bool.and_eq_true, decide_eq_true_eq] at hc
  have hn := toNat_ofNat_small (c.toNat + 32) (by omega)
  refine ⟨?_, ?_, ?_⟩
  · cases u
    · have h1 : isUpper c = true := by simp [isUpper, hc]
      have h2 : isUpper (Char.ofNat (c.toNat + 32)) = false := by
        simp only [isUpper, hn]; simp; omega
      simp [canonChar, h1, h2]
    · have h1 : isLower c = false := by simp only [isLower]; simp; omega
      have h2 : isLower (Char.ofNat (c.toNat + 32)) = true := by
        simp only [isLower, hn]; simp; omega
      simp [canonChar, h1, h2, hn]
  · have : isLower (Char.ofNat (c.toNat + 32)) = true := by
      simp only [isLower, hn]; simp; omega
    simp [validHeaderFieldByte, isAlphaNum, this]
  · have : isUpper c = true := by simp [isUpper, hc]
    simp [validHeaderFieldByte, isAlphaNum, this]

theorem canonLoop_equalFold (k1 k2 : Str) (h : equalFold k1 k2) (u : Bool) :
    canonLoop u k1 = canonLoop u k2 ∧ k1.all validHeaderFieldByte = k2.all validHeaderFieldByte := by
  induction k1 generalizing k2 u with
  | nil =>
    cases k2 with
    | nil => exact ⟨rfl, rfl⟩
    | cons d ds => simp [equalFold] at h
  | cons c cs ih =>
    cases k2 with
    | nil => simp [equalFold] at h
    | cons d ds =>
      simp only [equalFold, List.map_cons, List.cons.injEq] at h
      obtain ⟨hcd, htl⟩ := h
      have hchar : canonChar u c = canonChar u d ∧
          validHeaderFieldByte c = validHeaderFieldByte d := by
        rcases toLower_eq_cases c d hcd with rfl | ⟨hu, rfl⟩ | ⟨hu, rfl⟩
        · exact ⟨rfl, rfl⟩
        · obtain ⟨h1, h2, h3⟩ := canonChar_upper_pair u c hu
          exact ⟨h1, by rw [h2, h3]⟩
        · obtain ⟨h1, h2, h3⟩ := canonChar_upper_pair u d hu
          exact ⟨h1.symm, by rw [h2, h3]⟩
      obtain ⟨ih1, ih2⟩ := ih ds htl (canonChar u d == '-')
      simp only [canonLoop, List.all_cons, hchar.1, hchar.2, ih1, ih2, and_self]

theorem canonical_equalFold (k1 k2 : Str) (h : equalFold k1 k2)
    (hv : k1.all validHeaderFieldByte = true) :
    canonicalMIMEHeaderKey k1 = canonicalMIMEHeaderKey k2 := by
  obtain ⟨h1, h2⟩ := canonLoop_equalFold k1 k2 h true
  unfold canonicalMIMEHeaderKey
  rw [← h2, hv, h1]
  simp


/-! ## Count / duration resolution -/

/-- The resolved triple of lines 116-130 whenever the range check passes. -/
theorem resolve_count_or_duration (n c t : Int)
    (hv : ∃ r, resolveCountDuration n c t = .ok r) :
    (t = 0 → resolveCountDuration n c t = .ok ⟨n, c, maxInt32⟩) ∧
    (0 < t → resolveCountDuration n c t = .ok ⟨maxInt32, c, t⟩) ∧
    (t = 0 ∨ 0 < t) ∧
    (1 ≤ c → resolveCountDuration 200 c 0 = .ok ⟨200, c, maxInt32⟩) ∧
    (1 ≤ c → resolveCountDuration 200 c 30 = .ok ⟨maxInt32, c, 30⟩) := by
  obtain ⟨r, hr⟩ := hv
  have hc : 1 ≤ c := by
    by_contra hlt
    have : c ≤ 0 := by omega
    simp [resolveCountDuration, this] at hr
  refine ⟨?_, ?_, ?_, ?_, ?_⟩
  · intro ht
    subst ht
    by_cases hn : n ≤ 0
    · simp [resolveCountDuration, hn] at hr
    · have h1 : ¬ c ≤ 0 := by omega
      simp [resolveCountDuration, hn, h1, maxInt32]
  · intro ht
    have h0 : t ≠ 0 := by omega
    have h1 : ¬ c ≤ 0 := by omega
    have h2 : ¬ t < 0 := by omega
    simp [resolveCountDuration, h0, h1, h2, maxInt32]
  · by_contra hneg
    have h0 : t ≠ 0 := by omega
    have h2 : t < 0 := by omega
    simp [resolveCountDuration, h0, h2] at hr
  · intro hc1
    have h1 : ¬ c ≤ 0 := by omega
    simp [resolveCountDuration, h1, maxInt32]
  · intro hc1
    have h1 : ¬ c ≤ 0 := by omega
    simp [resolveCountDuration, h1, maxInt32]

/-- C1: for every raw count n, concurrency c and duration t that pass validation, the count
that main hands to the engine (N) is n and the duration (T) is math.MaxInt32 when t is 0,
and T is t and N is math.MaxInt32 when t > 0 (one of the two always being the case); main
does hand them over whenever the later startup steps succeed. In particular n = 200,
t = 0 gives count 200 and unbounded duration, and n = 200, t = 30 gives duration 30 and
unbounded count. -/
theorem main_count_or_duration (fl : Flags) (hin : fl.inRange = true) (env : Env)
    (hv : ∃ r, resolveCountDuration fl.n fl.c fl.t = .ok r) :
    (fl.t = 0 ∨ 0 < fl.t) ∧
    (fl.t = 0 → resolveCountDuration fl.n fl.c fl.t = .ok ⟨fl.n, fl.c, maxInt32⟩) ∧
    (0 < fl.t → resolveCountDuration fl.n fl.c fl.t = .ok ⟨maxInt32, fl.c, fl.t⟩) ∧
    (∀ b, main (.flags fl hin) env = .ok b →
      (fl.t = 0 → b.N = fl.n ∧ b.T = maxInt32) ∧
      (0 < fl.t → b.T = fl.t ∧ b.N = maxInt32) ∧ b.C = fl.c) ∧
    (∀ header cred proxyURL src, fl.args ≠ [] →
      assembleHeader fl.contentType fl.k fl.headers fl.accept env.now = .ok header →
      parseAuth fl.authHeader = .ok cred →
      (fl.output = "csv".toList ∨ fl.output = []) →
      parseProxy env fl.proxyAddr = .ok proxyURL →
      requestSource env fl.file (env.toUpper fl.m) (fl.args.headD []) header cred.1 cred.2
        = .ok src →
      ∃ b, main (.flags fl hin) env = .ok b ∧
        b.N = (if fl.t = 0 then fl.n else maxInt32) ∧
        b.T = (if fl.t = 0 then maxInt32 else fl.t) ∧ b.C = fl.c) ∧
    (∃ b, main invocationDefault exampleEnv = .ok b ∧ b.N = 200 ∧ b.T = maxInt32) ∧
    (∃ b, main invocationTimed exampleEnv = .ok b ∧ b.T = 30 ∧ b.N = maxInt32) := by
  obtain ⟨h0, h1, h2, -, -⟩ := resolve_count_or_duration fl.n fl.c fl.t hv
  obtain ⟨r, hr⟩ := hv
  have hrn : r.num = (if fl.t = 0 then fl.n else maxInt32) ∧
      r.timelimit = (if fl.t = 0 then maxInt32 else fl.t) ∧ r.conc = fl.c := by
    rcases h2 with ht | ht
    · have := h0 ht
      rw [hr] at this
      cases this
      simp [ht]
    · have := h1 ht
      rw [hr] at this
      cases this
      have hne : fl.t ≠ 0 := by omega
      simp [hne]
  refine ⟨h2, h0, h1, ?_, ?_, ⟨_, rfl, rfl, rfl⟩, ⟨_, rfl, rfl, rfl⟩⟩
  · intro b hb
    have hNT : b.N = r.num ∧ b.T = r.timelimit ∧ b.C = r.conc := by
      simp only [main] at hb
      by_cases hargs : fl.args.length < 1
      · rw [if_pos hargs] at hb
        cases hb
      · rw [if_neg hargs, hr] at hb
        simp only at hb
        cases hA : assembleHeader fl.contentType fl.k fl.headers fl.accept env.now with
        | error e => rw [hA] at hb; cases hb
        | ok header =>
          rw [hA] at hb
          simp only at hb
          cases hP : parseAuth fl.authHeader with
          | error e => rw [hP] at hb; cases hb
          | ok cred =>
            obtain ⟨username, password⟩ := cred
            rw [hP] at hb
            simp only at hb
            by_cases hout : fl.output ≠ "csv".toList ∧ fl.output ≠ []
            · rw [if_pos hout] at hb
              cases hb
            · rw [if_neg hout] at hb
              cases hX : parseProxy env fl.proxyAddr with
              | error e => rw [hX] at hb; cases hb
              | ok proxyURL =>
                rw [hX] at hb
                simp only at hb
                cases hS : requestSource env fl.file (env.toUpper fl.m) (fl.args.headD [])
                    header username password with
                | error e => rw [hS] at hb; cases hb
                | ok src =>
                  rw [hS] at hb
                  simp only [Except.ok.injEq] at hb
                  subst hb
                  exact ⟨rfl, rfl, rfl⟩
    obtain ⟨hN, hT, hC⟩ := hNT
    refine ⟨?_, ?_, ?_⟩
    · intro ht
      rw [hN, hT, hrn.1, hrn.2.1]
      simp [ht]
    · intro ht
      have hne : fl.t ≠ 0 := by omega
      rw [hN, hT, hrn.1, hrn.2.1]
      simp [hne]
    · rw [hC, hrn.2.2]
  · intro header cred proxyURL src hargs hA hP hout hX hS
    obtain ⟨username, password⟩ := cred
    have hlen : ¬ fl.args.length < 1 := by
      cases hfa : fl.args with
      | nil => exact absurd hfa hargs
      | cons x xs => simp
    have hout2 : ¬ (fl.output ≠ "csv".toList ∧ fl.output ≠ []) := by
      rintro ⟨h3, h4⟩
      rcases hout with h5 | h5
      · exact h3 h5
      · exact h4 h5
    refine ⟨Boomer.mk src fl.body r.num r.timelimit r.conc fl.q fl.s fl.insecure
      fl.disableCompression fl.disableKeepAlives proxyURL fl.output fl.readAll,
      ?_, hrn.1, hrn.2.1, hrn.2.2⟩
    simp only [main]
    rw [if_neg hlen, hr]
    simp only
    rw [hA]
    simp only
    rw [hP]
    simp only
    rw [if_neg hout2, hX]
    simp only
    rw [hS]

theorem main_count_or_duration_witness :
    (∃ r, resolveCountDuration 200 4 30 = .ok r) ∧
    ∃ b, main invocationTimed exampleEnv = .ok b ∧ b.T = 30 ∧ b.N = maxInt32 :=
  ⟨⟨⟨maxInt32, 4, 30⟩, by decide⟩,
    (main_count_or_duration { Flags.defaults 4 ["http://x/y".toList] with t := 30 } (by decide)
      exampleEnv ⟨⟨maxInt32, 4, 30⟩, by decide⟩).2.2.2.2.2.2⟩

/-- C2: for every raw n, c, t the resolver ends the process through usageAndExit with the
message "n, c and t cannot be smaller than 1." and exit status 1 if and only if c < 1, or
t < 0, or t = 0 and n < 1, and otherwise it returns; every input with c = 0 fails, and a
non-positive n is accepted when t > 0. -/
theorem resolve_fails_iff (n c t : Int) :
    (resolveCountDuration n c t
        = .error ⟨"n, c and t cannot be smaller than 1.".toList, 1⟩
      ↔ (c < 1 ∨ t < 0 ∨ (t = 0 ∧ n < 1))) ∧
    ((∃ r, resolveCountDuration n c t = .ok r) ↔ ¬ (c < 1 ∨ t < 0 ∨ (t = 0 ∧ n < 1))) ∧
    resolveCountDuration n 0 t = .error (usageAndExit "n, c and t cannot be smaller than 1.".toList) ∧
    (n ≤ 0 → 0 < t → 1 ≤ c → resolveCountDuration n c t = .ok ⟨maxInt32, c, t⟩) := by
  have key : (c < 1 ∨ t < 0 ∨ (t = 0 ∧ n < 1)) ↔
      ((if t = 0 then n else maxInt32) ≤ 0 ∨ c ≤ 0 ∨ (if t = 0 then maxInt32 else t) < 0) := by
    by_cases ht : t = 0
    · rw [if_pos ht, if_pos ht]
      unfold maxInt32
      constructor
      · rintro (h | h | ⟨-, h⟩)
        · exact Or.inr (Or.inl (by omega))
        · omega
        · exact Or.inl (by omega)
      · rintro (h | h | h)
        · exact Or.inr (Or.inr ⟨ht, by omega⟩)
        · exact Or.inl (by omega)
        · omega
    · rw [if_neg ht, if_neg ht]
      unfold maxInt32
      constructor
      · rintro (h | h | ⟨h, -⟩)
        · exact Or.inr (Or.inl (by omega))
        · exact Or.inr (Or.inr h)
        · exact absurd h ht
      · rintro (h | h | h)
        · omega
        · exact Or.inl (by omega)
        · exact Or.inr (Or.inl h)
  refine ⟨?_, ?_, ?_, ?_⟩
  · rw [key]
    unfold resolveCountDuration
    by_cases hcond : ((if t = 0 then n else maxInt32) ≤ 0 ∨ c ≤ 0
        ∨ (if t = 0 then maxInt32 else t) < 0)
    · rw [if_pos hcond]
      exact ⟨fun _ => hcond, fun _ => rfl⟩
    · rw [if_neg hcond]
      constructor
      · intro h
        cases h
      · intro h
        exact absurd h hcond
  · rw [key]
    unfold resolveCountDuration
    by_cases hcond : ((if t = 0 then n else maxInt32) ≤ 0 ∨ c ≤ 0
        ∨ (if t = 0 then maxInt32 else t) < 0)
    · rw [if_pos hcond]
      constructor
      · rintro ⟨r, hr⟩
        cases hr
      · intro h
        exact absurd hcond h
    · rw [if_neg hcond]
      exact ⟨fun _ => hcond, fun _ => ⟨_, rfl⟩⟩
  · simp [resolveCountDuration]
  · intro hn ht hc
    have h0 : t ≠ 0 := by omega
    have h1 : ¬ c ≤ 0 := by omega
    have h2 : ¬ t < 0 := by omega
    simp [resolveCountDuration, h0, h1, h2, maxInt32]

theorem resolve_fails_iff_witness :
    (-5 : Int) ≤ 0 ∧ (0 : Int) < 30 ∧ (1 : Int) ≤ 4 ∧
      resolveCountDuration (-5) 4 30 = .ok ⟨maxInt32, 4, 30⟩ :=
  ⟨by decide, by decide, by decide,
    (resolve_fails_iff (-5) 4 30).2.2.2 (by decide) (by decide) (by decide)⟩

/-- C10, as the specification states it, fails: with n = math.MaxInt32 and t = 0 the
input passes validation and the resolved count and the resolved duration are both equal
to the sentinel. -/
theorem resolve_both_sentinel :
    maxInt32 = 2147483647 ∧
    resolveCountDuration 2147483647 4 0 = .ok ⟨2147483647, 4, 2147483647⟩ ∧
    ¬ (∀ (n c t : Int) (r : Resolved), resolveCountDuration n c t = .ok r →
        ¬ (r.num = maxInt32 ∧ r.timelimit = maxInt32)) := by
  refine ⟨rfl, by decide, ?_⟩
  intro h
  exact h 2147483647 4 0 ⟨2147483647, 4, 2147483647⟩ (by decide) ⟨rfl, rfl⟩

/-- C10, amended: for every raw n, c, t that pass validation at least one of the resolved
count and the resolved duration equals the sentinel math.MaxInt32, so they are never both
bounded; both equal the sentinel exactly when t = 0 and n = math.MaxInt32, or
t = math.MaxInt32, and in every other case exactly one of them is bounded. -/
theorem resolve_one_sentinel (n c t : Int) (r : Resolved)
    (h : resolveCountDuration n c t = .ok r) :
    (r.num = maxInt32 ∨ r.timelimit = maxInt32) ∧
    ((r.num = maxInt32 ∧ r.timelimit = maxInt32) ↔ ((t = 0 ∧ n = maxInt32) ∨ t = maxInt32)) := by
  unfold resolveCountDuration at h
  by_cases hcond : ((if t = 0 then n else maxInt32) ≤ 0 ∨ c ≤ 0
      ∨ (if t = 0 then maxInt32 else t) < 0)
  · rw [if_pos hcond] at h
    cases h
  · rw [if_neg hcond] at h
    cases h
    by_cases ht : t = 0
    · subst ht
      simp [maxInt32]
    · simp [ht]

theorem resolve_one_sentinel_witness :
    resolveCountDuration 200 4 0 = .ok ⟨200, 4, maxInt32⟩ ∧
      ((200 : Int) = maxInt32 ∨ maxInt32 = maxInt32) :=
  ⟨by decide, (resolve_one_sentinel 200 4 0 ⟨200, 4, maxInt32⟩ (by decide)).1⟩

/-! ## The positional argument -/

/-- C8, as the specification states it, fails: with `-f urls.txt` and no positional
argument startup ends with exit status 1 for lack of the target URL, although the same
invocation with a positional argument starts. -/
theorem file_flag_without_url_exits :
    main invocationFileOnly exampleEnv = .error ⟨[], 1⟩ ∧
    ∃ b, main invocationFileAndUrl exampleEnv = .ok b :=
  ⟨rfl, _, rfl⟩

/-- C8, amended: the positional target URL is required also when -f supplies a file: for
every invocation on which flag.Parse() returns and in which no positional argument is
given, whether or not a URL file path is given with -f, startup fails with exit status 1
for lack of a target URL. -/
theorem url_required_also_with_file (fl : Flags) (hin : fl.inRange = true) (env : Env)
    (hargs : fl.args = []) :
    main (.flags fl hin) env = .error (usageAndExit []) ∧ (usageAndExit []).status = 1 := by
  refine ⟨?_, rfl⟩
  simp only [main]
  rw [hargs]
  rfl

theorem url_required_also_with_file_witness :
    ({ Flags.defaults 4 [] with file := "urls.txt".toList } : Flags).args = [] ∧
    ({ Flags.defaults 4 [] with file := "urls.txt".toList } : Flags).file ≠ [] ∧
    main invocationFileOnly exampleEnv = .error (usageAndExit []) :=
  ⟨rfl, by decide,
    (url_required_also_with_file { Flags.defaults 4 [] with file := "urls.txt".toList }
      (by decide) exampleEnv rfl).1⟩

/-! ## The shared header map -/

theorem canonical_authorization :
    canonicalMIMEHeaderKey "Authorization".toList = "Authorization".toList := by decide

/-- C7, as the specification states it, fails: building a request for the credentials
alice / secret writes an Authorization entry into the header set that was passed in. -/
theorem build_request_writes_header :
    (Header.empty.Set "Content-Type".toList "text/html".toList) "Authorization".toList = none ∧
    (buildRequest (fun _ _ => none) "GET".toList "http://x/y".toList
        (Header.empty.Set "Content-Type".toList "text/html".toList)
        "alice".toList "secret".toList).header "Authorization".toList
      = some ["Basic YWxpY2U6c2VjcmV0".toList] ∧
    (buildRequest (fun _ _ => none) "GET".toList "http://x/y".toList
        (Header.empty.Set "Content-Type".toList "text/html".toList)
        "alice".toList "secret".toList).header
      ≠ Header.empty.Set "Content-Type".toList "text/html".toList := by
  refine ⟨by decide, by decide, ?_⟩
  intro h
  have := congrFun h "Authorization".toList
  revert this
  decide

/-- C7, amended: buildRequest leaves the header set it is given unchanged when username
and password are both empty, and when http.NewRequest fails; when the request is created
and a username or password is present, it sets the Authorization entry of that header set
to "Basic " followed by the base64 of username:password and leaves every other entry
unchanged. The request always refers to the header set as it is after the call. -/
theorem build_request_header_frame (newRequestErr : Str → Str → Option Str)
    (method url : Str) (header : Header) (username password : Str) :
    (username = [] ∧ password = [] →
      (buildRequest newRequestErr method url header username password).header = header) ∧
    (newRequestErr method url ≠ none →
      (buildRequest newRequestErr method url header username password).header = header) ∧
    (newRequestErr method url = none → (username ≠ [] ∨ password ≠ []) →
      (buildRequest newRequestErr method url header username password).header
          = header.Set "Authorization".toList ("Basic ".toList ++ basicAuth username password) ∧
      ∀ key, key ≠ "Authorization".toList →
        (buildRequest newRequestErr method url header username password).header key
          = header key) ∧
    (∀ req, (buildRequest newRequestErr method url header username password).outcome = .ok req →
      req.Header = (buildRequest newRequestErr method url header username password).header) := by
  refine ⟨?_, ?_, ?_, ?_⟩
  · rintro ⟨hu, hp⟩
    unfold buildRequest
    cases newRequestErr method url <;> simp [hu, hp]
  · intro herr
    unfold buildRequest
    cases h : newRequestErr method url with
    | none => exact absurd h herr
    | some e => rfl
  · intro hnone hcred
    unfold buildRequest
    rw [hnone]
    simp only [if_pos hcred, true_and]
    intro key hkey
    unfold Header.Set
    rw [canonical_authorization, if_neg hkey]
  · intro req hreq
    unfold buildRequest at hreq ⊢
    cases h : newRequestErr method url with
    | some e => rw [h] at hreq; cases hreq
    | none =>
      rw [h] at hreq
      by_cases hcred : username ≠ [] ∨ password ≠ []
      · simp only [if_pos hcred] at hreq ⊢
        cases hreq
        rfl
      · simp only [if_neg hcred] at hreq ⊢
        cases hreq
        rfl

theorem build_request_header_frame_witness :
    ((fun (_ _ : Str) => (none : Option Str)) "GET".toList "http://x/y".toList = none) ∧
    ("alice".toList ≠ [] ∨ "secret".toList ≠ []) ∧
    (buildRequest (fun _ _ => none) "GET".toList "http://x/y".toList Header.empty
        "alice".toList "secret".toList).header
      = Header.empty.Set "Authorization".toList
          ("Basic ".toList ++ basicAuth "alice".toList "secret".toList) :=
  ⟨rfl, Or.inl (by decide),
    ((build_request_header_frame (fun _ _ => none) "GET".toList "http://x/y".toList
      Header.empty "alice".toList "secret".toList).2.2.1 rfl (Or.inl (by decide))).1⟩

/-! ## The test flag -/

theorem md5_length (msg : List UInt8) : (md5 msg).length = 16 := by
  simp [md5, leBytes]

theorem hexEncode_length (bs : List UInt8) : (hexEncode bs).length = 2 * bs.length := by
  induction bs with
  | nil => rfl
  | cons b bs ih =>
    simp only [hexEncode, List.flatMap_cons, List.length_append, List.length_cons,
      List.length_nil] at ih ⊢
    omega

theorem hexDigit_mem : ∀ n, n < 16 → hexDigit n ∈ hexChars := by decide

theorem hexEncode_chars (bs : List UInt8) : ∀ ch ∈ hexEncode bs, ch ∈ hexChars := by
  intro ch hch
  simp only [hexEncode, List.mem_flatMap, List.mem_cons, List.mem_singleton,
    List.not_mem_nil, or_false] at hch
  obtain ⟨b, -, rfl | rfl⟩ := hch
  · exact hexDigit_mem _ (by have := b.toNat_lt; omega)
  · exact hexDigit_mem _ (Nat.mod_lt _ (by decide))

set_option maxRecDepth 100000 in
/-- C6: for every key and every two times in the same hour bucket (same year, month, day
and hour) calcTestFlag gives the same string, and that string always has exactly 32
characters, all of them hexadecimal digits, being the hex encoding of the 16-byte MD5
digest of the hour-bucket string followed by the key. -/
theorem test_flag_hour_bucket (key : Str) (t1 t2 : Time) (h : sameHourBucket t1 t2) :
    calcTestFlag key t1 = calcTestFlag key t2 ∧
    t1.Format2006010215 = t2.Format2006010215 ∧
    (calcTestFlag key t1).length = 32 ∧
    (∀ ch ∈ calcTestFlag key t1, ch ∈ "0123456789abcdef".toList) ∧
    calcTestFlag key t1 = hexEncode (md5 (toBytes t1.Format2006010215 ++ toBytes key)) ∧
    (md5 (toBytes t1.Format2006010215 ++ toBytes key)).length = 16 ∧
    hexEncode (md5 (toBytes "abc".toList)) = "900150983cd24fb0d6963f7d28e17f72".toList := by
  obtain ⟨hy, hm, hd, hh⟩ := h
  have hfmt : t1.Format2006010215 = t2.Format2006010215 := by
    simp [Time.Format2006010215, hy, hm, hd, hh]
  refine ⟨?_, hfmt, ?_, ?_, ?_, md5_length _, by decide⟩
  · simp [calcTestFlag, hfmt]
  · simp [calcTestFlag, hexEncode_length, md5_length]
  · exact hexEncode_chars _
  · simp [calcTestFlag]

set_option maxRecDepth 100000 in
theorem test_flag_hour_bucket_witness :
    sameHourBucket ⟨2024, 1, 1, 12, 5, 6, 7⟩ ⟨2024, 1, 1, 12, 59, 59, 0⟩ ∧
    calcTestFlag "secret".toList ⟨2024, 1, 1, 12, 5, 6, 7⟩
      = calcTestFlag "secret".toList ⟨2024, 1, 1, 12, 59, 59, 0⟩ ∧
    calcTestFlag "secret".toList ⟨2024, 1, 1, 12, 5, 6, 7⟩
      = "8487dcf7ae699e079e73131d4b68e6f6".toList :=
  ⟨⟨rfl, rfl, rfl, rfl⟩,
    (test_flag_hour_bucket "secret".toList ⟨2024, 1, 1, 12, 5, 6, 7⟩ ⟨2024, 1, 1, 12, 59, 59, 0⟩
      ⟨rfl, rfl, rfl, rfl⟩).1, by decide⟩

/-! ## The cyclic file source -/

theorem splitSep_ne_nil {α : Type} [DecidableEq α] (sep : α) (s : List α) :
    splitSep sep s ≠ [] := by
  cases s with
  | nil => simp [splitSep]
  | cons c cs =>
    unfold splitSep
    by_cases hc : c = sep
    · simp [hc]
    · rw [if_neg hc]
      cases splitSep sep cs <;> simp

theorem splitSep_unfold {α : Type} [DecidableEq α] (sep : α) (s : List α) :
    splitSep sep s = s.takeWhile (fun x => decide (x ≠ sep)) ::
      (match s.dropWhile (fun x => decide (x ≠ sep)) with
       | [] => []
       | _ :: r => splitSep sep r) := by
  induction s with
  | nil => simp [splitSep]
  | cons c cs ih =>
    by_cases hc : c = sep
    · simp [splitSep, hc, List.takeWhile, List.dropWhile]
    · have hd : decide (c ≠ sep) = true := by simp [hc]
      rw [splitSep, if_neg hc, ih]
      simp only [List.takeWhile, List.dropWhile, hd]

theorem rawLines_nil : rawLines [] = [] := by decide

theorem rawLines_newline (data rest : List UInt8) (x : UInt8)
    (h : data.dropWhile (fun b => decide (b ≠ 10)) = x :: rest) :
    rawLines data = data.takeWhile (fun b => decide (b ≠ 10)) :: rawLines rest := by
  unfold rawLines
  have hs := splitSep_unfold (10 : UInt8) data
  rw [h] at hs
  simp only at hs
  rw [hs]
  have hne := splitSep_ne_nil (10 : UInt8) rest
  cases hL : splitSep (10 : UInt8) rest with
  | nil => exact absurd hL hne
  | cons y ys =>
    simp only [List.getLast?_cons_cons]
    by_cases hlast : (y :: ys).getLast? = some []
    · simp [hlast]
    · simp [hlast]

theorem rawLines_last (data : List UInt8) (hne : data ≠ [])
    (h : data.dropWhile (fun b => decide (b ≠ 10)) = []) : rawLines data = [data] := by
  unfold rawLines
  have hs := splitSep_unfold (10 : UInt8) data
  rw [h] at hs
  simp only at hs
  have htw : data.takeWhile (fun b => decide (b ≠ 10)) = data := by
    have := List.takeWhile_append_dropWhile (fun b => decide (b ≠ 10)) data
    rw [h, List.append_nil] at this
    exact this
  rw [hs, htw]
  simp [hne]

theorem length_dropWhile_tail_lt (data rest : List UInt8) (x : UInt8)
    (h : data.dropWhile (fun b => decide (b ≠ 10)) = x :: rest) : rest.length < data.length := by
  have := (List.dropWhile_suffix (fun b => decide (b ≠ 10)) (l := data)).length_le
  rw [h] at this
  simp only [List.length_cons] at this
  omega

/-- With enough fuel and no line too long for the buffer, the scan loop pushes every line
of the data and reads the data to its end. -/
theorem scanLoop_lines (fuel : Nat) (data : List UInt8) (hfuel : data.length ≤ fuel)
    (hshort : ∀ l ∈ rawLines data, l.length < maxScanTokenSize) :
    scanLoop fuel data = (fileLines data, []) := by
  induction fuel generalizing data with
  | zero =>
    have : data = [] := List.length_eq_zero.mp (by omega)
    subst this
    rfl
  | succ k ih =>
    by_cases hd : data = []
    · subst hd
      rfl
    · cases hdw : data.dropWhile (fun b => decide (b ≠ 10)) with
      | nil =>
        have hraw := rawLines_last data hd hdw
        have hlen : data.length < maxScanTokenSize := hshort data (by rw [hraw]; simp)
        have hscan : scan data = some (dropCR data, []) := by
          unfold scan
          rw [if_neg hd, hdw]
          simp only [if_pos hlen]
        have hnext : scanLoop k [] = ([], []) := by
          cases k <;> rfl
        simp only [scanLoop, hscan, hnext, fileLines, hraw, List.map_cons, List.map_nil]
      | cons x rest =>
        have hraw := rawLines_newline data rest x hdw
        have hlen : (data.takeWhile (fun b => decide (b ≠ 10))).length < maxScanTokenSize :=
          hshort _ (by rw [hraw]; simp)
        have hscan : scan data
            = some (dropCR (data.takeWhile (fun b => decide (b ≠ 10))), rest) := by
          unfold scan
          rw [if_neg hd, hdw]
          simp only [if_pos (Nat.succ_le_of_lt hlen)]
        have hrest := ih rest
          (by have := length_dropWhile_tail_lt data rest x hdw; omega)
          (fun l hl => hshort l (by rw [hraw]; exact List.mem_cons_of_mem _ hl))
        simp only [scanLoop, hscan, hrest, fileLines, hraw, List.map_cons]

theorem scanPass_content (fd : File) : (scanPass fd).2.content = fd.content := rfl

theorem scanPass_pushes (fd : File) : (scanPass fd).1 = (scanPass ⟨fd.content, 0⟩).1 := rfl

theorem scanPasses_same (k : Nat) (fd : File) :
    (scanPasses k fd).length = k ∧
      ∀ p ∈ scanPasses k fd, p = (scanPass ⟨fd.content, 0⟩).1 := by
  induction k generalizing fd with
  | zero => simp [scanPasses]
  | succ k ih =>
    obtain ⟨h1, h2⟩ := ih (scanPass fd).2
    refine ⟨by simp [scanPasses, h1], ?_⟩
    intro p hp
    simp only [scanPasses, List.mem_cons] at hp
    rcases hp with rfl | hp
    · exact scanPass_pushes fd
    · have := h2 p hp
      rw [scanPass_content] at this
      exact this

/-- C5, as the specification states it, fails: for the file "a\n\nb\n" a pass pushes the
empty line as well, so the sequence pushed is not the list of the non-empty lines. -/
theorem empty_line_is_pushed :
    (scanPass ⟨[97, 10, 10, 98, 10], 0⟩).1 = [[97], [], [98]] ∧
    nonEmptyLines [97, 10, 10, 98, 10] = [[97], [98]] ∧
    (scanPass ⟨[97, 10, 10, 98, 10], 0⟩).1 ≠ nonEmptyLines [97, 10, 10, 98, 10] := by
  decide

/-- C5, amended: for every file content that does not change during the run, every pass
(one Seek(0,0) followed by scanning until Scan returns false) pushes the same sequence of
URLs in the same order; when no line is longer than 65535 bytes that sequence is exactly
the list of all lines of the file, empty lines included, in file order, each emitted once
and each without its newline and one trailing carriage return. -/
theorem file_source_passes (content : List UInt8) (offset k : Nat) :
    (scanPasses k ⟨content, offset⟩).length = k ∧
    (∀ p ∈ scanPasses k ⟨content, offset⟩, p = (scanPass ⟨content, 0⟩).1) ∧
    ((∀ l ∈ rawLines content, l.length < maxScanTokenSize) →
      (scanPass ⟨content, 0⟩).1 = fileLines content ∧
      ∀ p ∈ scanPasses k ⟨content, offset⟩, p = fileLines content) := by
  obtain ⟨h1, h2⟩ := scanPasses_same k ⟨content, offset⟩
  refine ⟨h1, h2, ?_⟩
  intro hshort
  have hpass : (scanPass ⟨content, 0⟩).1 = fileLines content := by
    have := scanLoop_lines content.length content (le_refl _) hshort
    simp [scanPass, File.seekStart, this]
  exact ⟨hpass, fun p hp => by rw [h2 p hp, hpass]⟩

theorem file_source_passes_witness :
    (∀ l ∈ rawLines [97, 13, 10, 10, 98], l.length < maxScanTokenSize) ∧
    (scanPass ⟨[97, 13, 10, 10, 98], 0⟩).1 = fileLines [97, 13, 10, 10, 98] ∧
    fileLines [97, 13, 10, 10, 98] = [[97], [], [98]] ∧
    scanPasses 2 ⟨[97, 13, 10, 10, 98], 3⟩ = [[[97], [], [98]], [[97], [], [98]]] :=
  ⟨by decide, ((file_source_passes [97, 13, 10, 10, 98] 3 2).2.2 (by decide)).1,
    by decide, by decide⟩

/-! ## Credentials -/

/-- C4: for every username u and password p such that u is non-empty, neither contains a
newline, p contains no colon, p has at least two characters and p does not start with
whitespace, parsing u ++ ":" ++ p with authRegexp succeeds with username u and password
p; every string without a colon fails to parse (and is fatal when given as -a);
"alice:secret" yields alice and secret, and "noseparator" fails. -/
theorem auth_parse (u p : Str) (hu : u ≠ []) (hun : '\n' ∉ u) (hpn : '\n' ∉ p)
    (hpc : ':' ∉ p) (hlen : 2 ≤ p.length) (hsp : ∀ c ∈ p.head?, isSpace c = false) :
    parseInputWithRegexp (u ++ ':' :: p) authRegexp = .ok [u ++ ':' :: p, u, p] ∧
    parseAuth (u ++ ':' :: p) = .ok (u, p) ∧
    (∀ s, ':' ∉ s → parseInputWithRegexp s authRegexp
        = .error ("could not parse the provided input; input = ".toList ++ s)) ∧
    (∀ s, s ≠ [] → ':' ∉ s → parseAuth s
        = .error (usageAndExit ("could not parse the provided input; input = ".toList ++ s))) ∧
    parseAuth "alice:secret".toList = .ok ("alice".toList, "secret".toList) ∧
    parseAuth "noseparator".toList = .error (usageAndExit
      "could not parse the provided input; input = noseparator".toList) := by
  have hok := auth_parse_ok u p hu hun hpn hpc hlen hsp
  refine ⟨hok, ?_, auth_parse_no_colon, ?_, by decide, by decide⟩
  · have hne : u ++ ':' :: p ≠ [] := by simp
    unfold parseAuth
    rw [if_pos hne, hok]
    rfl
  · intro s hs hcolon
    unfold parseAuth
    rw [if_pos hs, auth_parse_no_colon s hcolon]

theorem auth_parse_witness :
    ("alice".toList ≠ [] ∧ '\n' ∉ "alice".toList ∧ '\n' ∉ "secret".toList ∧
      ':' ∉ "secret".toList ∧ 2 ≤ "secret".toList.length ∧
      ∀ c ∈ "secret".toList.head?, isSpace c = false) ∧
    parseAuth ("alice".toList ++ ':' :: "secret".toList) = .ok ("alice".toList, "secret".toList) :=
  ⟨by decide,
    (auth_parse "alice".toList "secret".toList (by decide) (by decide) (by decide) (by decide)
      (by decide) (by decide)).2.1⟩

/-! ## Custom headers -/

theorem headerValue?_eq (r v : Str) (h : headerValue? r = some v) : v = headerValue r := by
  unfold headerValue? at h
  unfold headerValue
  by_cases hd : List.dropWhile isSpace r ≠ []
  · rw [if_pos hd] at h ⊢
    cases h
    rfl
  · rw [if_neg hd] at h ⊢
    cases hl : (List.filter isDot r).getLast? with
    | none => rw [hl] at h; cases h
    | some c =>
      rw [hl] at h
      cases h
      rfl

theorem headerPair?_eq (seg : Str) (nv : Str × Str) (h : headerPair? seg = some nv) :
    nv = headerPair seg := by
  unfold headerPair? at h
  cases hd : List.dropWhile isWordDash seg with
  | nil => rw [hd] at h; cases h
  | cons c r =>
    rw [hd] at h
    by_cases hcond : List.takeWhile isWordDash seg ≠ [] ∧ c = ':'
    · simp only [if_pos hcond] at h
      cases hv : headerValue? r with
      | none => rw [hv] at h; cases h
      | some v =>
        rw [hv] at h
        cases h
        have := headerValue?_eq r v hv
        simp [headerPair, headerName, afterColon, hd, this]
    · simp only [if_neg hcond] at h
      cases h

theorem parse_header_shape (seg : Str) (h : HeaderShape seg) :
    ∃ whole, parseInputWithRegexp seg headerRegexp
      = .ok [whole, headerName seg, headerValue (afterColon seg)] := by
  have hsome := (headerPair?_isSome_iff seg).mpr h
  obtain ⟨nv, hnv⟩ := Option.isSome_iff_exists.mp hsome
  have heq := headerPair?_eq seg nv hnv
  obtain ⟨whole, hw⟩ := parse_header_ok seg nv.1 nv.2 hnv
  refine ⟨whole, ?_⟩
  rw [hw, heq]
  rfl

theorem parse_header_not_shape (seg : Str) (h : ¬ HeaderShape seg) :
    parseInputWithRegexp seg headerRegexp
      = .error ("could not parse the provided input; input = ".toList ++ seg) := by
  apply parse_header_err
  cases hp : headerPair? seg with
  | none => rfl
  | some nv =>
    exfalso
    apply h
    exact (headerPair?_isSome_iff seg).mp (by rw [hp]; rfl)

theorem setCustomHeaders_ok (segs : List Str) (h0 : Header)
    (hall : ∀ seg ∈ segs, HeaderShape seg) :
    setCustomHeaders segs h0 = .ok (applyWrites (segs.map headerPair) h0) := by
  induction segs generalizing h0 with
  | nil => rfl
  | cons seg segs ih =>
    obtain ⟨whole, hw⟩ := parse_header_shape seg (hall seg (List.mem_cons_self _ _))
    have := ih (h0.Set (headerName seg) (headerValue (afterColon seg)))
      (fun s hs => hall s (List.mem_cons_of_mem _ hs))
    simp only [setCustomHeaders, hw]
    rw [show ([whole, headerName seg, headerValue (afterColon seg)] : List Str).getD 1 []
        = headerName seg from rfl,
      show ([whole, headerName seg, headerValue (afterColon seg)] : List Str).getD 2 []
        = headerValue (afterColon seg) from rfl, this]
    rfl

theorem setCustomHeaders_err (segs : List Str) (h0 : Header)
    (hbad : ∃ seg ∈ segs, ¬ HeaderShape seg) :
    ∃ seg ∈ segs, ¬ HeaderShape seg ∧ setCustomHeaders segs h0 = .error (usageAndExit
      ("could not parse the provided input; input = ".toList ++ seg)) := by
  classical
  induction segs generalizing h0 with
  | nil =>
    obtain ⟨seg, hmem, -⟩ := hbad
    cases hmem
  | cons seg segs ih =>
    by_cases hs : HeaderShape seg
    · obtain ⟨whole, hw⟩ := parse_header_shape seg hs
      have hbad2 : ∃ s ∈ segs, ¬ HeaderShape s := by
        obtain ⟨s, hmem, hns⟩ := hbad
        rcases List.mem_cons.mp hmem with rfl | hmem
        · exact absurd hs hns
        · exact ⟨s, hmem, hns⟩
      obtain ⟨s, hmem, hns, herr⟩ := ih (h0.Set (headerName seg) (headerValue (afterColon seg)))
        hbad2
      refine ⟨s, List.mem_cons_of_mem _ hmem, hns, ?_⟩
      simp only [setCustomHeaders, hw]
      exact herr
    · refine ⟨seg, List.mem_cons_self _ _, hs, ?_⟩
      simp only [setCustomHeaders, parse_header_not_shape seg hs]

theorem not_headerShape_of_no_colon (seg : Str) (h : ':' ∉ seg) : ¬ HeaderShape seg := by
  rintro ⟨name, ws, c, rest, hseg, -⟩
  apply h
  rw [hseg]
  simp

/-- C3, as the specification states it, fails: the value is not always the text after the
colon without its leading whitespace. For the piece "X:  " the value is one space, and
for the piece "Y:a\nb" the value stops before the newline. -/
theorem header_value_not_trimmed :
    parseInputWithRegexp "X:  ".toList headerRegexp
      = .ok ["X:  ".toList, "X".toList, " ".toList] ∧
    claimedValue (afterColon "X:  ".toList) = [] ∧
    parseInputWithRegexp "Y:a\nb".toList headerRegexp
      = .ok ["Y:a".toList, "Y".toList, "a".toList] ∧
    claimedValue (afterColon "Y:a\nb".toList) = "a\nb".toList := by
  decide

/-- C3, amended: for every non-empty header string, parsing succeeds if and only if every
';'-separated piece matches ^([\w-]+):\s*(.+), that is starts with one or more characters
of [0-9A-Za-z_-], then a colon, then optional whitespace, then at least one character that
is not a newline; on success each piece contributes exactly the pair (name, value), in
order, where the value is the text after the colon without its leading whitespace and cut
before its first newline when that text has a character that is not whitespace, and is
the last character other than a newline of that text when it is all whitespace.
"X-Foo:bar;X-Baz: qux" yields exactly X-Foo -> "bar" and X-Baz -> "qux", and a string
with a piece lacking a colon (such as the empty piece after a trailing ';') is fatal. -/
theorem custom_headers_parse (hs : Str) (h0 : Header) (hne : hs ≠ []) :
    ((∃ H, addCustomHeaders hs h0 = .ok H) ↔ ∀ seg ∈ splitSep ';' hs, HeaderShape seg) ∧
    (∀ seg ∈ splitSep ';' hs, HeaderShape seg →
      ∃ whole, parseInputWithRegexp seg headerRegexp
        = .ok [whole, headerName seg, headerValue (afterColon seg)]) ∧
    ((∀ seg ∈ splitSep ';' hs, HeaderShape seg) →
      addCustomHeaders hs h0 = .ok (applyWrites ((splitSep ';' hs).map headerPair) h0)) ∧
    ((∃ seg ∈ splitSep ';' hs, ':' ∉ seg) →
      ∃ seg ∈ splitSep ';' hs, addCustomHeaders hs h0 = .error (usageAndExit
        ("could not parse the provided input; input = ".toList ++ seg))) ∧
    (splitSep ';' "X-Foo:bar;X-Baz: qux".toList).map headerPair
      = [("X-Foo".toList, "bar".toList), ("X-Baz".toList, "qux".toList)] ∧
    splitSep ';' "X-Foo:bar;".toList = ["X-Foo:bar".toList, []] := by
  have hstage : addCustomHeaders hs h0 = setCustomHeaders (splitSep ';' hs) h0 := by
    unfold addCustomHeaders
    rw [if_pos hne]
  rw [hstage]
  refine ⟨⟨?_, ?_⟩, ?_, ?_, ?_, by decide, by decide⟩
  · rintro ⟨H, hH⟩
    by_contra hnot
    push_neg at hnot
    obtain ⟨seg, -, -, herr⟩ := setCustomHeaders_err (splitSep ';' hs) h0 hnot
    rw [hH] at herr
    cases herr
  · intro hall
    exact ⟨_, setCustomHeaders_ok _ h0 hall⟩
  · intro seg _ hshape
    exact parse_header_shape seg hshape
  · intro hall
    exact setCustomHeaders_ok _ h0 hall
  · rintro ⟨seg, hmem, hcolon⟩
    obtain ⟨s, hs1, -, herr⟩ := setCustomHeaders_err (splitSep ';' hs) h0
      ⟨seg, hmem, not_headerShape_of_no_colon seg hcolon⟩
    exact ⟨s, hs1, herr⟩

theorem custom_headers_parse_witness :
    "X-Foo:bar;X-Baz: qux".toList ≠ [] ∧
    (∀ seg ∈ splitSep ';' "X-Foo:bar;X-Baz: qux".toList, HeaderShape seg) ∧
    addCustomHeaders "X-Foo:bar;X-Baz: qux".toList Header.empty
      = .ok (applyWrites ((splitSep ';' "X-Foo:bar;X-Baz: qux".toList).map headerPair)
          Header.empty) := by
  have hall : ∀ seg ∈ splitSep ';' "X-Foo:bar;X-Baz: qux".toList, HeaderShape seg := by
    intro seg hseg
    apply (headerPair?_isSome_iff seg).mp
    revert seg
    decide
  exact ⟨by decide, hall,
    (custom_headers_parse "X-Foo:bar;X-Baz: qux".toList Header.empty (by decide)).2.2.1 hall⟩

/-! ## Order of the header writes -/

theorem lastWrite_nil (key : Str) : lastWrite key [] = none := rfl

theorem lastWrite_append_singleton (key : Str) (ws : List (Str × Str)) (w : Str × Str) :
    lastWrite key (ws ++ [w])
      = if canonicalMIMEHeaderKey w.1 = key then some w.2 else lastWrite key ws := by
  unfold lastWrite
  rw [List.reverse_append, List.reverse_singleton, List.singleton_append, List.find?_cons]
  by_cases h : canonicalMIMEHeaderKey w.1 = key
  · simp [h]
  · simp [h]

theorem applyWrites_append_singleton (ws : List (Str × Str)) (w : Str × Str) (h0 : Header) :
    applyWrites (ws ++ [w]) h0 = (applyWrites ws h0).Set w.1 w.2 := by
  simp [applyWrites, List.foldl_append]

/-- The entry of a key after a run of writes is the value of the last write to it. -/
theorem applyWrites_apply (ws : List (Str × Str)) (h0 : Header) (key : Str) :
    applyWrites ws h0 key
      = match lastWrite key ws with
        | some v => some [v]
        | none => h0 key := by
  induction ws using List.reverseRecOn with
  | nil => rfl
  | append_singleton ws w ih =>
    rw [applyWrites_append_singleton, lastWrite_append_singleton]
    unfold Header.Set
    by_cases h : canonicalMIMEHeaderKey w.1 = key
    · rw [if_pos h.symm, if_pos h]
    · rw [if_neg (fun h1 => h h1.symm), if_neg h]
      exact ih

theorem lastWrite_append (key : Str) (ws vs : List (Str × Str)) :
    lastWrite key (ws ++ vs)
      = match lastWrite key vs with
        | some v => some v
        | none => lastWrite key ws := by
  induction vs using List.reverseRecOn with
  | nil => simp [lastWrite_nil]
  | append_singleton vs w ih =>
    rw [← List.append_assoc, lastWrite_append_singleton, lastWrite_append_singleton]
    by_cases h : canonicalMIMEHeaderKey w.1 = key
    · simp [h]
    · simp only [if_neg h]
      exact ih

theorem lastWrite_isSome_of_mem (key : Str) (ws : List (Str × Str)) (w : Str × Str)
    (hw : w ∈ ws) (hk : canonicalMIMEHeaderKey w.1 = key) : ∃ v, lastWrite key ws = some v := by
  unfold lastWrite
  cases hf : ws.reverse.find? (fun w => decide (canonicalMIMEHeaderKey w.1 = key)) with
  | some x => exact ⟨x.2, rfl⟩
  | none =>
    rw [List.find?_eq_none] at hf
    have := hf w (List.mem_reverse.mpr hw)
    simp [hk] at this

theorem valid_of_isWordDash (c : Char) (h : isWordDash c = true) :
    validHeaderFieldByte c = true := by
  unfold isWordDash isWord at h
  unfold validHeaderFieldByte
  simp only [Bool.or_eq_true, beq_iff_eq] at h ⊢
  rcases h with (h | rfl) | rfl
  · exact Or.inl (Or.inl (Or.inl h))
  · decide
  · decide

theorem headerName_valid (seg : Str) : (headerName seg).all validHeaderFieldByte = true := by
  rw [List.all_eq_true]
  intro c hc
  exact valid_of_isWordDash c (mem_takeWhile_imp isWordDash seg c hc)

theorem customHeaders_name_valid (headers : Str) (w : Str × Str)
    (hw : w ∈ customHeaders headers) : w.1.all validHeaderFieldByte = true := by
  unfold customHeaders at hw
  by_cases hne : headers ≠ []
  · rw [if_pos hne, List.mem_map] at hw
    obtain ⟨seg, -, rfl⟩ := hw
    exact headerName_valid seg
  · rw [if_neg hne] at hw
    cases hw

theorem addCustomHeaders_ok (headers : Str) (h0 H : Header)
    (h : addCustomHeaders headers h0 = .ok H) : H = applyWrites (customHeaders headers) h0 := by
  unfold addCustomHeaders at h
  unfold customHeaders
  by_cases hne : headers ≠ []
  · rw [if_pos hne] at h ⊢
    have hall : ∀ seg ∈ splitSep ';' headers, HeaderShape seg := by
      by_contra hnot
      push_neg at hnot
      obtain ⟨seg, -, -, herr⟩ := setCustomHeaders_err (splitSep ';' headers) h0 hnot
      rw [h] at herr
      cases herr
    rw [setCustomHeaders_ok _ h0 hall] at h
    cases h
    rfl
  · rw [if_neg hne] at h ⊢
    cases h
    rfl

theorem assembleHeader_ok (contentType k headers accept : Str) (now : Time) (H : Header)
    (h : assembleHeader contentType k headers accept now = .ok H) :
    H = applyWrites
      (headerWrites contentType (calcTestFlag k now) (customHeaders headers) accept)
      Header.empty := by
  unfold assembleHeader at h
  simp only at h
  cases hc : addCustomHeaders headers
      ((Header.empty.Set "Content-Type".toList contentType).Set "X-Perf-Test".toList
        (calcTestFlag k now)) with
  | error e => rw [hc] at h; cases h
  | ok H1 =>
    rw [hc] at h
    have h1 := addCustomHeaders_ok _ _ _ hc
    simp only [Except.ok.injEq] at h
    rw [← h, h1]
    unfold headerWrites
    by_cases ha : accept ≠ []
    · rw [if_pos ha, if_pos ha]
      simp [applyWrites, List.foldl_append]
    · rw [if_neg ha, if_neg ha]
      simp [applyWrites, List.foldl_append]

theorem canonical_accept : canonicalMIMEHeaderKey "Accept".toList = "Accept".toList := by
  decide

theorem canonical_content_type :
    canonicalMIMEHeaderKey "Content-Type".toList = "Content-Type".toList := by decide

theorem canonical_perf_test :
    canonicalMIMEHeaderKey "X-Perf-Test".toList = "X-Perf-Test".toList := by decide

/-- C9: for every set of inputs that parses, the final value of every key is the value of
the last write to that key under case-normalization, the writes being Content-Type, then
X-Perf-Test, then the custom headers in their listed order, then Accept. So a non-empty -A
is the final Accept value whatever the custom headers are; a custom header whose name is
Accept, Content-Type or X-Perf-Test in any letter case writes to that very key; and for
every key other than an overriding Accept, once a custom header names the key the final
value is that of the last custom header naming it, not the -T value or the test flag. -/
theorem header_last_write_wins (contentType k headers accept : Str) (now : Time) (H : Header)
    (h : assembleHeader contentType k headers accept now = .ok H) :
    (∀ key, H key = (lastWrite key
        (headerWrites contentType (calcTestFlag k now) (customHeaders headers) accept)).map
          (fun v => [v])) ∧
    (accept ≠ [] → H "Accept".toList = some [accept]) ∧
    (∀ w ∈ customHeaders headers, ∀ target, equalFold w.1 target →
      canonicalMIMEHeaderKey w.1 = canonicalMIMEHeaderKey target) ∧
    (canonicalMIMEHeaderKey "Accept".toList = "Accept".toList ∧
      canonicalMIMEHeaderKey "Content-Type".toList = "Content-Type".toList ∧
      canonicalMIMEHeaderKey "X-Perf-Test".toList = "X-Perf-Test".toList) ∧
    (∀ key v, (accept = [] ∨ key ≠ "Accept".toList) →
      lastWrite key (customHeaders headers) = some v → H key = some [v]) ∧
    (∀ w ∈ customHeaders headers, (accept = [] ∨ canonicalMIMEHeaderKey w.1 ≠ "Accept".toList) →
      ∃ v, lastWrite (canonicalMIMEHeaderKey w.1) (customHeaders headers) = some v ∧
        H (canonicalMIMEHeaderKey w.1) = some [v]) := by
  have hH := assembleHeader_ok contentType k headers accept now H h
  have hkey : ∀ key, H key = (lastWrite key
      (headerWrites contentType (calcTestFlag k now) (customHeaders headers) accept)).map
        (fun v => [v]) := by
    intro key
    rw [hH, applyWrites_apply]
    cases lastWrite key
      (headerWrites contentType (calcTestFlag k now) (customHeaders headers) accept) <;> rfl
  have hcustom : ∀ key v, (accept = [] ∨ key ≠ "Accept".toList) →
      lastWrite key (customHeaders headers) = some v → H key = some [v] := by
    intro key v hacc hlast
    rw [hkey key]
    unfold headerWrites
    rw [lastWrite_append]
    have htail : lastWrite key (if accept ≠ [] then [("Accept".toList, accept)] else [])
        = none := by
      by_cases ha : accept ≠ []
      · rw [if_pos ha]
        have hk : key ≠ "Accept".toList := by
          rcases hacc with h1 | h1
          · exact absurd h1 ha
          · exact h1
        have := lastWrite_append_singleton key [] ("Accept".toList, accept)
        rw [List.nil_append] at this
        rw [this, canonical_accept, if_neg (fun h1 => hk h1.symm)]
        rfl
      · rw [if_neg ha]
        rfl
    rw [htail]
    simp only
    rw [lastWrite_append, hlast]
    rfl
  refine ⟨hkey, ?_, ?_, ⟨canonical_accept, canonical_content_type, canonical_perf_test⟩,
    hcustom, ?_⟩
  · intro ha
    rw [hkey]
    unfold headerWrites
    rw [if_pos ha, lastWrite_append_singleton, canonical_accept, if_pos rfl]
    rfl
  · intro w hw target hfold
    exact canonical_equalFold w.1 target hfold (customHeaders_name_valid headers w hw)
  · intro w hw hacc
    obtain ⟨v, hv⟩ := lastWrite_isSome_of_mem (canonicalMIMEHeaderKey w.1)
      (customHeaders headers) w hw rfl
    exact ⟨v, hv, hcustom _ v hacc hv⟩

theorem header_last_write_wins_witness :
    ∃ H, assembleHeader "text/html".toList "secret".toList
        "ACCEPT:a;content-type:b;Content-TYPE: c".toList "json".toList ⟨2024, 1, 1, 12, 0, 0, 0⟩
      = .ok H ∧ H "Accept".toList = some ["json".toList] ∧
        H "Content-Type".toList = some ["c".toList] := by
  have hok : ∃ H, assembleHeader "text/html".toList "secret".toList
      "ACCEPT:a;content-type:b;Content-TYPE: c".toList "json".toList ⟨2024, 1, 1, 12, 0, 0, 0⟩
        = .ok H := ⟨_, rfl⟩
  obtain ⟨H, hH⟩ := hok
  have hthm := header_last_write_wins "text/html".toList "secret".toList
    "ACCEPT:a;content-type:b;Content-TYPE: c".toList "json".toList ⟨2024, 1, 1, 12, 0, 0, 0⟩ H hH
  refine ⟨H, hH, hthm.2.1 (by decide), ?_⟩
  exact hthm.2.2.2.2.1 "Content-Type".toList "c".toList (Or.inr (by decide)) (by decide)

end Boom
